import Mathlib

/-!
Verification development for the QTC quantum-safe wallet generation scripts
(qti2.js, qtc2.js, qti3.js, the single and multi-address PQ-HD variants, and
the oqs_wallet_cli C++ bridge).

Modelling conventions:
* Byte strings (Node Buffer / Uint8Array values) are `List Nat`, each element
  a byte value below 256.
* JavaScript strings are `List Char` (or Lean `String` at the boundary); all
  strings handled by the wallet code are ASCII, so `Buffer.from(s)` is the
  list of character code points.
* The external cryptographic primitives (the sha3 npm package SHA3/SHAKE, the
  noble-post-quantum ml_kem1024/ml_dsa65 functions, and liboqs key generation)
  are not part of this repository; they are modelled as abstract function
  parameters, so every theorem quantifies over them.  The data flow around
  them (what is absorbed, in which order, which bytes are taken) is embedded
  faithfully from the JavaScript/C++ sources.
* The bech32 npm package (version 2, the `bech32` export used by every
  script via `import { bech32 } from "bech32"`) is embedded concretely:
  `polymodStep`, `hrpChkCore` (prefixChk), `encodeCore`, `decodeCore`,
  `toWords`, `fromWords`.  Its checksum constant is 1; the `bech32m` export
  (constant 0x2bc830a3) is embedded as well for comparison.
-/

namespace QTC

deriving instance DecidableEq for Except

/-- Character codes of an ASCII string, matching `Buffer.from(s, "utf8")` for
the ASCII-only strings used by the wallet scripts. -/
def strBytes (s : String) : List Nat := s.data.map Char.toNat

/-- Big-endian 32-bit encoding, matching `Buffer.writeUInt32BE` for values
below 2^32 (Node throws a RangeError outside that range; callers guard). -/
def u32be (n : Nat) : List Nat :=
  [n / 2 ^ 24 % 256, n / 2 ^ 16 % 256, n / 2 ^ 8 % 256, n % 256]

/-- Value of a big-endian digit string in the given base. -/
def beNum (base : Nat) (ds : List Nat) : Nat :=
  List.foldl (fun a d => a * base + d) 0 ds

/-! ## The bech32 npm package (the AddressCodec dependency)

Embedded from the bech32 package used by every wallet script.  The `bech32`
export carries checksum constant 1; `bech32m` carries 0x2bc830a3.  The
scripts import and use only `bech32`. -/

/-- The bech32 data character set (ALPHABET in the npm package). -/
def ALPHABET : List Char := "qpzry9x8gf2tvdw0s3jn54khce6mua7l".data

/-- Character for a 5-bit value (`ALPHABET.charAt(x)`). -/
def alphabetChar (w : Nat) : Char := ALPHABET.getD w ' '

/-- Reverse lookup (ALPHABET_MAP in the npm package). -/
def alphabetMap (c : Char) : Option Nat := List.findIdx? (fun a => a == c) ALPHABET

/-- One step of the bech32 checksum LFSR (polymodStep in the npm package).
The JS `-((b >> i) & 1) & G` idiom selects the generator constant when bit i
of the top six bits is set. -/
def polymodStep (pre : Nat) : Nat :=
  let b := pre >>> 25
  ((pre &&& 0x1ffffff) <<< 5) ^^^
    (if b.testBit 0 then 0x3b6a57b2 else 0) ^^^
    (if b.testBit 1 then 0x26508e6d else 0) ^^^
    (if b.testBit 2 then 0x1ea119fa else 0) ^^^
    (if b.testBit 3 then 0x3d4233dd else 0) ^^^
    (if b.testBit 4 then 0x2a1462b3 else 0)

/-- Iterated polymodStep. -/
def pmN : Nat → Nat → Nat
  | 0, c => c
  | n + 1, c => pmN n (polymodStep c)

/-- Checksum state after absorbing the human-readable part (prefixChk in the
npm package): high bits of each character, a zero separator step, then the
low five bits of each character.  Characters must be in the ASCII range
33..126. -/
def hrpChkCore (hrp : List Char) : Except String Nat :=
  if hrp.all (fun c => decide (33 ≤ c.toNat) && decide (c.toNat ≤ 126)) then
    let chk1 := hrp.foldl (fun c ch => polymodStep c ^^^ (ch.toNat >>> 5)) 1
    Except.ok (hrp.foldl (fun c ch => polymodStep c ^^^ (ch.toNat &&& 31)) (polymodStep chk1))
  else Except.error "Invalid prefix"

/-- Inner emission loop of the npm `convert` function, with an explicit
fuel argument so that it is structurally recursive and evaluates in the
kernel; each iteration removes outBits ≥ 1 buffered bits, so a fuel of
`bits` is never exhausted before the loop guard fails. -/
def emitWordsGo : Nat → Nat → Nat → Nat → Nat → List Nat × Nat
  | 0, _, bits, _, _ => ([], bits)
  | fuel + 1, value, bits, outBits, maxV =>
    if 0 < outBits ∧ outBits ≤ bits then
      let rest := emitWordsGo fuel value (bits - outBits) outBits maxV
      (((value >>> (bits - outBits)) &&& maxV) :: rest.1, rest.2)
    else ([], bits)

/-- Emission loop of the npm `convert` function: while at least `outBits`
bits are buffered, emit the top `outBits` bits. -/
def emitWords (value bits outBits maxV : Nat) : List Nat × Nat :=
  emitWordsGo bits value bits outBits maxV

/-- The fuel is irrelevant as long as it is at least the bit count. -/
theorem emitWordsGo_fuel (v outB maxV : Nat) :
    ∀ bits fuel, bits ≤ fuel →
      emitWordsGo fuel v bits outB maxV = emitWordsGo bits v bits outB maxV := by
  intro bits
  induction bits using Nat.strong_induction_on with
  | _ bits ih =>
    intro fuel hf
    match fuel, hf with
    | 0, hf =>
      have hb : bits = 0 := by omega
      subst hb
      rfl
    | f + 1, hf =>
      by_cases hcond : 0 < outB ∧ outB ≤ bits
      · have hb1 : 0 < bits := by omega
        obtain ⟨b1, rfl⟩ : ∃ b1, bits = b1 + 1 := ⟨bits - 1, by omega⟩
        simp only [emitWordsGo, if_pos hcond]
        rw [ih (b1 + 1 - outB) (by omega) f (by omega),
          ih (b1 + 1 - outB) (by omega) b1 (by omega)]
      · rcases Nat.eq_zero_or_pos bits with hb | hb
        · subst hb
          simp only [emitWordsGo, if_neg hcond]
        · obtain ⟨b1, rfl⟩ : ∃ b1, bits = b1 + 1 := ⟨bits - 1, by omega⟩
          simp only [emitWordsGo, if_neg hcond]

/-- Accumulating fold of the npm `convert` function: shift each datum into
the bit buffer and emit full output groups. -/
def convertCore (data : List Nat) (inBits outBits maxV : Nat) : Nat × Nat × List Nat :=
  data.foldl
    (fun acc d =>
      let value := (acc.1 <<< inBits) ||| d
      let bits := acc.2.1 + inBits
      let e := emitWords value bits outBits maxV
      (value, e.2, acc.2.2 ++ e.1))
    (0, 0, [])

/-- `bech32.toWords`: 8-bit bytes to 5-bit groups with padding (the padded
branch of `convert` never fails). -/
def toWords (bytes : List Nat) : List Nat :=
  let r := convertCore bytes 8 5 31
  if 0 < r.2.1 then r.2.2 ++ [(r.1 <<< (5 - r.2.1)) &&& 31] else r.2.2

/-- `bech32.fromWords`: 5-bit groups back to 8-bit bytes, rejecting excess or
non-zero padding. -/
def fromWords (words : List Nat) : Except String (List Nat) :=
  let r := convertCore words 5 8 255
  if r.2.1 ≥ 5 then Except.error "Excess padding"
  else if (r.1 <<< (8 - r.2.1)) &&& 255 ≠ 0 then Except.error "Non-zero padding"
  else Except.ok r.2.2

/-- Encoder of the npm package, parameterised by the checksum constant K
(1 for the `bech32` export, 0x2bc830a3 for `bech32m`).  Result is the list
of characters of the address string. -/
def encodeCore (K : Nat) (hrp : List Char) (ws : List Nat) : Except String (List Char) :=
  let LIMIT := 90
  if hrp.length + 7 + ws.length > LIMIT then Except.error "Exceeds length limit" else
  let hrp := hrp.map Char.toLower
  match hrpChkCore hrp with
  | Except.error e => Except.error e
  | Except.ok chk0 =>
    if ws.all (fun x => decide (x < 32)) then
      let chk := ws.foldl (fun c x => polymodStep c ^^^ x) chk0
      let chk2 := pmN 6 chk ^^^ K
      Except.ok (hrp ++ ['1'] ++ ws.map alphabetChar ++
        (List.range 6).map (fun i => alphabetChar ((chk2 >>> ((5 - i) * 5)) &&& 31)))
    else Except.error "Non 5-bit word"

/-- Last index of a character (String.prototype.lastIndexOf). -/
def lastIndexOf : List Char → Char → Option Nat
  | [], _ => none
  | c :: cs, t =>
    match lastIndexOf cs t with
    | some i => some (i + 1)
    | none => if c == t then some 0 else none

/-- Map every data character back through ALPHABET_MAP, failing on an
unknown character. -/
def mapAlphabet : List Char → Option (List Nat)
  | [] => some []
  | c :: cs =>
    match alphabetMap c, mapAlphabet cs with
    | some v, some vs => some (v :: vs)
    | _, _ => none

/-- Decoder of the npm package (its __decode), parameterised by the checksum
constant: case checks, separator search, prefix checksum, character mapping,
checksum verification; returns the human-readable part and the data words
without the six checksum words. -/
def decodeCore (K : Nat) (cs : List Char) : Except String (List Char × List Nat) :=
  let LIMIT := 90
  if cs.length < 8 then Except.error "too short" else
  if cs.length > LIMIT then Except.error "Exceeds length limit" else
  let lowered := cs.map Char.toLower
  let uppered := cs.map Char.toUpper
  if cs ≠ lowered ∧ cs ≠ uppered then Except.error "Mixed-case string" else
  let cs := lowered
  match lastIndexOf cs '1' with
  | none => Except.error "No separator character"
  | some split =>
    if split = 0 then Except.error "Missing prefix" else
    let hrp := cs.take split
    let wordCs := cs.drop (split + 1)
    if wordCs.length < 6 then Except.error "Data too short" else
    match hrpChkCore hrp with
    | Except.error e => Except.error e
    | Except.ok chk0 =>
      match mapAlphabet wordCs with
      | none => Except.error "Unknown character"
      | some vals =>
        let chk := vals.foldl (fun c v => polymodStep c ^^^ v) chk0
        if chk ≠ K then Except.error "Invalid checksum" else
        Except.ok (hrp, vals.take (vals.length - 6))

/-- Checksum constant of the `bech32` export — the one every wallet
script pulls in and uses. -/
def bech32Const : Nat := 1

/-- Checksum constant of the `bech32m` export, which the scripts never
pull in even though their comments and README speak of bech32m. -/
def bech32mConst : Nat := 0x2bc830a3

/-- Human-readable part used by every wallet script. -/
def qtcChars : List Char := "qtc".data

/-! ## External cryptographic primitives (abstract collaborators)

The sha3 npm package, the noble-post-quantum functions and liboqs are not
part of this repository; wallet pipelines are parameterised over them. -/

/-- Signature keypair (ml_dsa65 / ML-DSA-65). -/
structure SigKeyPair where
  publicKey : List Nat
  secretKey : List Nat
deriving DecidableEq

/-- KEM keypair (ml_kem1024 / ML-KEM-1024). -/
structure KemKeyPair where
  publicKey : List Nat
  secretKey : List Nat
deriving DecidableEq

/-- Hash primitives of the sha3 npm package: `sha3 bits input` is the
fixed-output digest of the concatenation of all updates, `shake bits input
outLen` the extendable-output digest of the requested length.  Also stands
for crypto.createHash("sha3-512"). -/
structure HashFns where
  sha3 : Nat → List Nat → List Nat
  shake : Nat → List Nat → Nat → List Nat

/-- Interface of noble-post-quantum ml_kem1024.  `encapsulate pk msg`
models `ml_kem1024.encapsulate(publicKey, msg)`; when the scripts call it
without `msg`, the library draws msg itself from the OS RNG
(randomBytes(32)), so that argument carries the hidden randomness consumed
after Seed creation. -/
structure NobleKem where
  keygen : List Nat → KemKeyPair
  encapsulate : List Nat → List Nat → List Nat × List Nat
  decapsulate : List Nat → List Nat → List Nat

/-- Interface of noble-post-quantum ml_dsa65. -/
structure NobleDsa where
  keygen : List Nat → SigKeyPair

/-- Modelled from the spec: the liboqs provider behind oqs_wallet_cli.
liboqs itself is outside the repository.  Per the CryptoProvider contract,
key generation and self-encapsulation are deterministic functions of the
48-byte NIST-KAT DRBG seed installed by init_nist_kat_drbg_48; `kemSelf`
returns (keypair, (ciphertext, sharedSecret)) and `sigKeygen` a signature
keypair, both consuming only that seeded DRBG stream. -/
structure OqsProvider where
  kemSelf : List Nat → KemKeyPair × List Nat × List Nat
  sigKeygen : List Nat → SigKeyPair

/-- Domain tag QTC_PQHD_DILITHIUM absorbed into the provisional
signature-seed derivation by the PQ-HD variants. -/
def QTC_PQHD_DILITHIUM : List Nat := strBytes "QTC_PQHD_DILITHIUM"

/-! ## qti2.js — Primary method (noble path)

Shared secret from an unseeded `ml_kem1024.encapsulate(kyber_pk)` call,
entropy = SHA3-512(sharedSecret), Dilithium3 from its first 32 bytes,
address = bech32("qtc", toWords(SHA3-256(dilithium_pk)[0:20])) with no
witness version prepended. -/

/-- Shared secret established by qti2.js step 1 (identical code appears in
qtc2.js, part_001 and part_002): keygen from the 64-byte random seed, then
encapsulate against the fresh public key.  `encapRandom` is the 32-byte
message the noble library draws from the OS RNG because the call site
passes no message. -/
def qti2SharedSecret (kem : NobleKem) (kyberSeed encapRandom : List Nat) : List Nat :=
  (kem.encapsulate (kem.keygen kyberSeed).publicKey encapRandom).2

/-- qti2.js step 2: entropy = SHA3-512 of the shared secret. -/
def qti2Entropy (H : HashFns) (kem : NobleKem) (kyberSeed encapRandom : List Nat) : List Nat :=
  H.sha3 512 (qti2SharedSecret kem kyberSeed encapRandom)

/-- qti2.js step 3: Dilithium3 keypair from the first 32 entropy bytes. -/
def qti2Dilithium (H : HashFns) (kem : NobleKem) (dsa : NobleDsa)
    (kyberSeed encapRandom : List Nat) : SigKeyPair :=
  dsa.keygen ((qti2Entropy H kem kyberSeed encapRandom).take 32)

/-- qti2.js step 4ab: first 20 bytes of SHA3-256 of the Dilithium public
key. -/
def qti2AddressBytes (H : HashFns) (kem : NobleKem) (dsa : NobleDsa)
    (kyberSeed encapRandom : List Nat) : List Nat :=
  (H.sha3 256 (qti2Dilithium H kem dsa kyberSeed encapRandom).publicKey).take 20

/-- qti2.js step 4c data: `bech32.toWords(addressBytes)` — unlike every
other variant, no witness version is prepended here. -/
def qti2AddressWords (H : HashFns) (kem : NobleKem) (dsa : NobleDsa)
    (kyberSeed encapRandom : List Nat) : List Nat :=
  toWords (qti2AddressBytes H kem dsa kyberSeed encapRandom)

/-- qti2.js step 4c: `bech32.encode("qtc", words)` (checksum constant 1). -/
def qti2Address (H : HashFns) (kem : NobleKem) (dsa : NobleDsa)
    (kyberSeed encapRandom : List Nat) : Except String (List Char) :=
  encodeCore bech32Const qtcChars (qti2AddressWords H kem dsa kyberSeed encapRandom)

/-- Wallet record assembled by qti2.js step 5. -/
structure Qti2Wallet where
  address : List Char
  entropy : List Nat
  kyberPublic : List Nat
  kyberPrivate : List Nat
  dilithiumPublic : List Nat
  dilithiumPrivate : List Nat
  sharedSecret : List Nat
deriving DecidableEq

/-- Full qti2.js run as a function of the Kyber keygen seed and of the
encapsulation randomness the noble library draws after Seed creation. -/
def qti2GenerateWallet (H : HashFns) (kem : NobleKem) (dsa : NobleDsa)
    (kyberSeed encapRandom : List Nat) : Except String Qti2Wallet :=
  match qti2Address H kem dsa kyberSeed encapRandom with
  | Except.error e => Except.error e
  | Except.ok a =>
    let kp := kem.keygen kyberSeed
    let dkp := qti2Dilithium H kem dsa kyberSeed encapRandom
    Except.ok
      { address := a
        entropy := qti2Entropy H kem kyberSeed encapRandom
        kyberPublic := kp.publicKey
        kyberPrivate := kp.secretKey
        dilithiumPublic := dkp.publicKey
        dilithiumPrivate := dkp.secretKey
        sharedSecret := qti2SharedSecret kem kyberSeed encapRandom }

/-! ## qtc2.js — Primary method variant

Same KEM step; entropy = SHAKE256(sharedSecret, 64), and the address data
prepends witness version 1. -/

/-- qtc2.js step 2: entropy = 64-byte SHAKE256 digest of the shared
secret. -/
def qtc2Entropy (H : HashFns) (kem : NobleKem) (kyberSeed encapRandom : List Nat) : List Nat :=
  H.shake 256 (qti2SharedSecret kem kyberSeed encapRandom) 64

/-- qtc2.js step 3: Dilithium3 keypair from the first 32 entropy bytes. -/
def qtc2Dilithium (H : HashFns) (kem : NobleKem) (dsa : NobleDsa)
    (kyberSeed encapRandom : List Nat) : SigKeyPair :=
  dsa.keygen ((qtc2Entropy H kem kyberSeed encapRandom).take 32)

/-- qtc2.js step 4ab: first 20 bytes of SHA3-256 of the Dilithium public
key. -/
def qtc2AddressBytes (H : HashFns) (kem : NobleKem) (dsa : NobleDsa)
    (kyberSeed encapRandom : List Nat) : List Nat :=
  (H.sha3 256 (qtc2Dilithium H kem dsa kyberSeed encapRandom).publicKey).take 20

/-- qtc2.js step 4c data: witness version 1 followed by the 5-bit words. -/
def qtc2AddressWords (H : HashFns) (kem : NobleKem) (dsa : NobleDsa)
    (kyberSeed encapRandom : List Nat) : List Nat :=
  1 :: toWords (qtc2AddressBytes H kem dsa kyberSeed encapRandom)

/-- qtc2.js step 4c: `bech32.encode("qtc", data)` (checksum constant 1,
despite the adjacent comment saying bech32m). -/
def qtc2Address (H : HashFns) (kem : NobleKem) (dsa : NobleDsa)
    (kyberSeed encapRandom : List Nat) : Except String (List Char) :=
  encodeCore bech32Const qtcChars (qtc2AddressWords H kem dsa kyberSeed encapRandom)

/-! ## part_002 — Single PQ-HD method (noble path)

Same KEM step; provisional Dilithium seed = SHAKE256(ss ‖ tag, 32); master
entropy = SHAKE256(ss ‖ dilithium_pk, 64); address from SHA3-256 of the
master entropy, witness version 2.  Its export object reads an identifier
`combined_input` that no statement of the file defines. -/

/-- part_002 step 2: provisional Dilithium seed from two SHAKE256 updates,
the shared secret then the domain tag. -/
def part002DilithiumSeed (H : HashFns) (kem : NobleKem)
    (kyberSeed encapRandom : List Nat) : List Nat :=
  H.shake 256 (qti2SharedSecret kem kyberSeed encapRandom ++ QTC_PQHD_DILITHIUM) 32

/-- part_002 step 2: Dilithium3 keypair from that seed. -/
def part002Dilithium (H : HashFns) (kem : NobleKem) (dsa : NobleDsa)
    (kyberSeed encapRandom : List Nat) : SigKeyPair :=
  dsa.keygen (part002DilithiumSeed H kem kyberSeed encapRandom)

/-- part_002 step 3: master entropy from two SHAKE256 updates, the shared
secret then the Dilithium public key, squeezed to 64 bytes. -/
def part002Master (H : HashFns) (kem : NobleKem) (dsa : NobleDsa)
    (kyberSeed encapRandom : List Nat) : List Nat :=
  H.shake 256
    (qti2SharedSecret kem kyberSeed encapRandom ++
      (part002Dilithium H kem dsa kyberSeed encapRandom).publicKey) 64

/-- part_002 step 4ab: first 20 bytes of SHA3-256 of the master entropy. -/
def part002AddressBytes (H : HashFns) (kem : NobleKem) (dsa : NobleDsa)
    (kyberSeed encapRandom : List Nat) : List Nat :=
  (H.sha3 256 (part002Master H kem dsa kyberSeed encapRandom)).take 20

/-- part_002 step 4c: witness version 2 then the 5-bit words, encoded with
`bech32.encode` (checksum constant 1). -/
def part002Address (H : HashFns) (kem : NobleKem) (dsa : NobleDsa)
    (kyberSeed encapRandom : List Nat) : Except String (List Char) :=
  encodeCore bech32Const qtcChars
    (2 :: toWords (part002AddressBytes H kem dsa kyberSeed encapRandom))

/-- Export record shape shared by part_002 and qti3.js (step 5 object). -/
structure PqhdWallet where
  address : List Char
  masterEntropy : List Nat
  kyberPublic : List Nat
  kyberPrivate : List Nat
  dilithiumPublic : List Nat
  dilithiumPrivate : List Nat
  sharedSecret : List Nat
  combinedInput : List Nat
deriving DecidableEq

/-- part_002 step 5: the export object literal evaluates
`combined_input.toString("base64")`, but no statement in part_002 ever
defines `combined_input` (qti3.js defines it at its step 3); evaluating the
literal therefore throws a ReferenceError after the address has been
computed, so no wallet record is ever produced on this path. -/
def part002Wallet (H : HashFns) (kem : NobleKem) (dsa : NobleDsa)
    (kyberSeed encapRandom : List Nat) : Except String PqhdWallet :=
  match part002Address H kem dsa kyberSeed encapRandom with
  | Except.error e => Except.error e
  | Except.ok _ => Except.error "ReferenceError: combined_input is not defined"

/-! ## oqs_wallet_cli (part_006, rng_deterministic.cpp) and qti3.js

The CLI expands an arbitrary hex seed plus a domain string into a 48-byte
DRBG seed via SHAKE256("oqs_wallet_cli" ‖ domain ‖ seed), installs it as
the deterministic NIST-KAT DRBG and runs liboqs keygen/encapsulation. -/

/-- Hex nybble decoder (the nyb lambda in part_006). -/
def hexDigitVal (c : Char) : Option Nat :=
  if '0' ≤ c ∧ c ≤ '9' then some (c.toNat - 48)
  else if 'a' ≤ c ∧ c ≤ 'f' then some (c.toNat - 97 + 10)
  else if 'A' ≤ c ∧ c ≤ 'F' then some (c.toNat - 65 + 10)
  else none

/-- Pairwise hex decoding loop of hex2bin, byte = hi*16 + lo. -/
def hex2binGo : List Char → Except String (List Nat)
  | [] => Except.ok []
  | hi :: lo :: rest =>
    match hexDigitVal hi, hexDigitVal lo with
    | some h, some l =>
      match hex2binGo rest with
      | Except.error e => Except.error e
      | Except.ok out => Except.ok ((h * 16 + l) :: out)
    | _, _ => Except.error "invalid hex"
  | [_] => Except.error "invalid hex"

/-- hex2bin of part_006: even length required, then pairwise decode. -/
def hex2bin (hex : List Char) : Except String (List Nat) :=
  if hex.length % 2 ≠ 0 then Except.error "seed_hex length must be even"
  else hex2binGo hex

/-- Lowercase hex digit characters. -/
def hexDigitChar (n : Nat) : Char := "0123456789abcdef".data.getD n ' '

/-- Node Buffer.toString("hex"): two lowercase hex digits per byte. -/
def bytesToHex (bs : List Nat) : List Char :=
  (bs.map (fun b => [hexDigitChar (b / 16), hexDigitChar (b % 16)])).flatten

/-- shake256_expand_seed_48 of rng_deterministic.cpp: SHAKE256 absorbing
the literal "oqs_wallet_cli", the domain string, then the seed; 48 bytes
squeezed. -/
def shake256ExpandSeed48 (H : HashFns) (seed : List Nat) (domain : String) : List Nat :=
  H.shake 256 (strBytes "oqs_wallet_cli" ++ strBytes domain ++ seed) 48

/-- Output of the kem_self_from_seed command. -/
structure KemSelfOut where
  kyberPublic : List Nat
  kyberPrivate : List Nat
  shared : List Nat
deriving DecidableEq

/-- cmd_kem_self_from_seed of part_006: decode the hex seed, seed the DRBG
for domain "kyber_kem_self", generate the keypair and encapsulate against
its own public key — all randomness comes from the seeded DRBG. -/
def cmd_kem_self_from_seed (H : HashFns) (P : OqsProvider) (seedHex : List Char) :
    Except String KemSelfOut :=
  match hex2bin seedHex with
  | Except.error e => Except.error e
  | Except.ok seed =>
    let s48 := shake256ExpandSeed48 H seed "kyber_kem_self"
    let r := P.kemSelf s48
    Except.ok { kyberPublic := r.1.publicKey, kyberPrivate := r.1.secretKey, shared := r.2.2 }

/-- cmd_gen_dilithium_from_seed of part_006: decode the hex seed, seed the
DRBG for domain "dilithium_keygen", generate the signature keypair. -/
def cmd_gen_dilithium_from_seed (H : HashFns) (P : OqsProvider) (seedHex : List Char) :
    Except String SigKeyPair :=
  match hex2bin seedHex with
  | Except.error e => Except.error e
  | Except.ok seed =>
    Except.ok (P.sigKeygen (shake256ExpandSeed48 H seed "dilithium_keygen"))

/-- Full qti3.js generatePQHDWallet run: KEM self-encapsulation through the
CLI from the random 64-byte seed (hex transport), provisional Dilithium
seed = SHAKE256(ss ‖ tag, 32), Dilithium through the CLI, combined input =
ss ‖ dilithium_pk, master entropy = SHAKE256(combined, 64), address from
SHA3-256(master)[0:20] with witness version 2, then the export record —
which here does include the combined input. -/
def qti3Wallet (H : HashFns) (P : OqsProvider) (kyberSeed : List Nat) :
    Except String PqhdWallet :=
  match cmd_kem_self_from_seed H P (bytesToHex kyberSeed) with
  | Except.error e => Except.error e
  | Except.ok o1 =>
    let sharedSecret := o1.shared
    let dilithiumSeed := H.shake 256 (sharedSecret ++ QTC_PQHD_DILITHIUM) 32
    match cmd_gen_dilithium_from_seed H P (bytesToHex dilithiumSeed) with
    | Except.error e => Except.error e
    | Except.ok dkp =>
      let combinedInput := sharedSecret ++ dkp.publicKey
      let masterEntropy := H.shake 256 combinedInput 64
      let addressBytes := (H.sha3 256 masterEntropy).take 20
      match encodeCore bech32Const qtcChars (2 :: toWords addressBytes) with
      | Except.error e => Except.error e
      | Except.ok address =>
        Except.ok
          { address := address
            masterEntropy := masterEntropy
            kyberPublic := o1.kyberPublic
            kyberPrivate := o1.kyberPrivate
            dilithiumPublic := dkp.publicKey
            dilithiumPrivate := dkp.secretKey
            sharedSecret := sharedSecret
            combinedInput := combinedInput }

/-! ## part_001 — multi-address PQ-HD HD wallet (noble path)

QTCHDPath, QTCHDNode and QTCPQHDWallet. -/

/-- QTCHDPath: four non-negative integers. -/
structure HDPath where
  purpose : Nat
  account : Nat
  change : Nat
  addressIndex : Nat
deriving DecidableEq

/-- Default path of `new QTCHDPath()` (constructor defaults 44, 0, 0, 0). -/
def defaultHDPath : HDPath := { purpose := 44, account := 0, change := 0, addressIndex := 0 }

/-- Apostrophe character (code 39), the hardened marker in path text. -/
def apos : Char := Char.ofNat 39

/-- QTCHDPath.toString: the canonical text form with hardened markers on
purpose and account. -/
def hdPathToString (p : HDPath) : String :=
  let a := apos.toString
  "m/" ++ toString p.purpose ++ a ++ "/" ++ toString p.account ++ a ++ "/" ++
    toString p.change ++ "/" ++ toString p.addressIndex

/-- Consume one expected character. -/
def expectChar (c : Char) : List Char → Option (List Char)
  | x :: xs => if x == c then some xs else none
  | [] => none

/-- Decimal value of a digit run (parseInt on a \d+ capture). -/
def digitsToNat (ds : List Char) : Nat :=
  ds.foldl (fun a c => a * 10 + (c.toNat - 48)) 0

/-- Consume a nonempty maximal digit run (one \d+ group of the regex). -/
def matchSeg (cs : List Char) : Option (Nat × List Char) :=
  let ds := cs.takeWhile Char.isDigit
  if ds.isEmpty then none else some (digitsToNat ds, cs.drop ds.length)

/-- QTCHDPath.fromString: matcher for the anchored pattern
m\/(\d+)[hardened]\/(\d+)[hardened]\/(\d+)\/(\d+) where [hardened] is the
apostrophe; any other shape throws "Invalid HD path format". -/
def hdPathFromString (s : String) : Except String HDPath :=
  let r : Option HDPath := do
    let r0 ← expectChar 'm' s.data
    let r1 ← expectChar '/' r0
    let (purpose, r2) ← matchSeg r1
    let r3 ← expectChar apos r2
    let r4 ← expectChar '/' r3
    let (account, r5) ← matchSeg r4
    let r6 ← expectChar apos r5
    let r7 ← expectChar '/' r6
    let (change, r8) ← matchSeg r7
    let r9 ← expectChar '/' r8
    let (addressIndex, r10) ← matchSeg r9
    if r10.isEmpty then
      some { purpose := purpose, account := account, change := change,
             addressIndex := addressIndex }
    else none
  match r with
  | some p => Except.ok p
  | none => Except.error "Invalid HD path format"

/-- QTCHDNode: entropy, path, and the keypair fields that the constructor
initialises to null (the unused chainCode field is omitted). -/
structure HDNode where
  masterEntropy : List Nat
  path : HDPath
  publicKey : Option (List Nat)
  privateKey : Option (List Nat)
deriving DecidableEq

/-- QTCHDNode.deriveChild: child path copies purpose/account/change from
the parent path and replaces only the address index; child entropy =
SHA3-512(parentEntropy ‖ childPath.toString() ‖ uint32BE(index)).
Buffer.writeUInt32BE throws a RangeError outside 32 unsigned bits. -/
def deriveChild (H : HashFns) (node : HDNode) (index : Nat) : Except String HDNode :=
  let childPath : HDPath :=
    { purpose := node.path.purpose, account := node.path.account,
      change := node.path.change, addressIndex := index }
  if index < 2 ^ 32 then
    let derivationData :=
      node.masterEntropy ++ strBytes (hdPathToString childPath) ++ u32be index
    Except.ok
      { masterEntropy := H.sha3 512 derivationData, path := childPath,
        publicKey := none, privateKey := none }
  else Except.error "RangeError: index does not fit in 32 unsigned bits"

/-- QTCHDNode.generateKeyPair: Dilithium3 from the first 32 bytes of the
node entropy; stores the keypair on the node. -/
def generateKeyPair (dsa : NobleDsa) (node : HDNode) : HDNode :=
  let kp := dsa.keygen (node.masterEntropy.take 32)
  { node with publicKey := some kp.publicKey, privateKey := some kp.secretKey }

/-- Witness program of QTCHDNode.generateAddress: requires a generated
keypair, then takes the first 20 bytes of SHA3-256 of the node Dilithium
public key (not of the master entropy). -/
def hdProgram (H : HashFns) (node : HDNode) : Except String (List Nat) :=
  match node.publicKey with
  | none => Except.error "Must generate keypair first"
  | some pk => Except.ok ((H.sha3 256 pk).take 20)

/-- QTCHDNode.generateAddress: witness version 2 followed by the 5-bit
words of the program, through `bech32.encode` (checksum constant 1). -/
def generateAddress (H : HashFns) (node : HDNode) : Except String (List Char) :=
  match hdProgram H node with
  | Except.error e => Except.error e
  | Except.ok addressBytes =>
    encodeCore bech32Const qtcChars (2 :: toWords addressBytes)

/-- part_001 generateMaster step 2: provisional Dilithium seed =
SHAKE256(ss ‖ tag, 32) — same formula as part_002. -/
def hdDilithiumSeed (H : HashFns) (kem : NobleKem) (kyberSeed encapRandom : List Nat) :
    List Nat :=
  H.shake 256 (qti2SharedSecret kem kyberSeed encapRandom ++ QTC_PQHD_DILITHIUM) 32

/-- part_001 generateMaster step 2: the provisional Dilithium keypair. -/
def hdProvisional (H : HashFns) (kem : NobleKem) (dsa : NobleDsa)
    (kyberSeed encapRandom : List Nat) : SigKeyPair :=
  dsa.keygen (hdDilithiumSeed H kem kyberSeed encapRandom)

/-- part_001 generateMaster step 3: combinedInput = ss ‖ dilithium_pk. -/
def hdCombinedInput (H : HashFns) (kem : NobleKem) (dsa : NobleDsa)
    (kyberSeed encapRandom : List Nat) : List Nat :=
  qti2SharedSecret kem kyberSeed encapRandom ++
    (hdProvisional H kem dsa kyberSeed encapRandom).publicKey

/-- part_001 generateMaster step 3: master entropy =
SHA3-512(combinedInput). -/
def hdMasterEntropy (H : HashFns) (kem : NobleKem) (dsa : NobleDsa)
    (kyberSeed encapRandom : List Nat) : List Nat :=
  H.sha3 512 (hdCombinedInput H kem dsa kyberSeed encapRandom)

/-- part_001 generateMaster step 4: master node at the default path with
its keypair generated. -/
def hdMasterNode (H : HashFns) (kem : NobleKem) (dsa : NobleDsa)
    (kyberSeed encapRandom : List Nat) : HDNode :=
  generateKeyPair dsa
    { masterEntropy := hdMasterEntropy H kem dsa kyberSeed encapRandom,
      path := defaultHDPath, publicKey := none, privateKey := none }

/-- Entry pushed per address by generateAddresses. -/
structure AddressEntry where
  index : Nat
  path : String
  address : List Char
  dilithiumPublic : List Nat
  dilithiumPrivate : List Nat
deriving DecidableEq

/-- QTCPQHDWallet.generateAddresses: loop i = 0..count-1, derive the child
node, generate its keypair and address.  The `account` and `change`
parameters are only echoed to the console by the script and never reach
the derivation. -/
def generateAddresses (H : HashFns) (dsa : NobleDsa) (masterNode : HDNode)
    (count _account _change : Nat) : Except String (List AddressEntry) :=
  (List.range count).mapM (fun i =>
    match deriveChild H masterNode i with
    | Except.error e => Except.error e
    | Except.ok child0 =>
      let kp := dsa.keygen (child0.masterEntropy.take 32)
      let childNode : HDNode :=
        { masterEntropy := child0.masterEntropy, path := child0.path,
          publicKey := some kp.publicKey, privateKey := some kp.secretKey }
      match generateAddress H childNode with
      | Except.error e => Except.error e
      | Except.ok address =>
        Except.ok
          { index := i, path := hdPathToString childNode.path, address := address,
            dilithiumPublic := kp.publicKey, dilithiumPrivate := kp.secretKey })

/-! ## Arithmetic helper lemmas for the codec proofs -/

theorem and31_eq_mod (x : Nat) : x &&& 31 = x % 32 := by
  have h := Nat.and_pow_two_sub_one_eq_mod x 5
  norm_num at h
  exact h

theorem and255_eq_mod (x : Nat) : x &&& 255 = x % 256 := by
  have h := Nat.and_pow_two_sub_one_eq_mod x 8
  norm_num at h
  exact h

theorem shiftLeft_or_low (v b k : Nat) (hb : b < 2 ^ k) : (v <<< k) ||| b = v * 2 ^ k + b := by
  apply Nat.eq_of_testBit_eq
  intro i
  rw [Nat.mul_comm, Nat.testBit_mul_pow_two_add v hb i]
  simp only [Nat.testBit_or, Nat.testBit_shiftLeft]
  by_cases h : i < k
  · simp [h, Nat.not_le.mpr h, Nat.testBit_lt_two_pow]
  · have h2 : b.testBit i = false :=
      Nat.testBit_lt_two_pow (Nat.lt_of_lt_of_le hb (Nat.pow_le_pow_right (by norm_num) (Nat.le_of_not_lt h)))
    simp [h, h2, Nat.le_of_not_lt h]

theorem emitWords_not (v b outB maxV : Nat) (h : ¬(0 < outB ∧ outB ≤ b)) :
    emitWords v b outB maxV = ([], b) := by
  rcases Nat.eq_zero_or_pos b with hb | hb
  · subst hb
    rfl
  · obtain ⟨b1, rfl⟩ : ∃ b1, b = b1 + 1 := ⟨b - 1, by omega⟩
    rw [emitWords]
    simp only [emitWordsGo, if_neg h]

theorem emitWords_lt (v b outB maxV : Nat) (h : b < outB) :
    emitWords v b outB maxV = ([], b) :=
  emitWords_not v b outB maxV (by omega)

theorem emitWords_ge (v b outB maxV : Nat) (h1 : 0 < outB) (h2 : outB ≤ b) :
    emitWords v b outB maxV =
      (((v >>> (b - outB)) &&& maxV) :: (emitWords v (b - outB) outB maxV).1,
        (emitWords v (b - outB) outB maxV).2) := by
  have hb1 : 0 < b := by omega
  obtain ⟨b1, rfl⟩ : ∃ b1, b = b1 + 1 := ⟨b - 1, by omega⟩
  have hcond : 0 < outB ∧ outB ≤ b1 + 1 := ⟨h1, h2⟩
  rw [emitWords]
  simp only [emitWordsGo]
  rw [if_pos hcond]
  rw [show emitWords v (b1 + 1 - outB) outB maxV =
    emitWordsGo (b1 + 1 - outB) v (b1 + 1 - outB) outB maxV from rfl]
  rw [emitWordsGo_fuel v outB maxV (b1 + 1 - outB) b1 (by omega)]

theorem emitWords_one (v b outB maxV : Nat) (h1 : 0 < outB) (h2 : outB ≤ b)
    (h3 : b < 2 * outB) :
    emitWords v b outB maxV = ([(v >>> (b - outB)) &&& maxV], b - outB) := by
  rw [emitWords_ge v b outB maxV h1 h2, emitWords_lt v (b - outB) outB maxV (by omega)]

theorem emitWords_two (v b outB maxV : Nat) (h1 : 0 < outB) (h2 : 2 * outB ≤ b)
    (h3 : b < 3 * outB) :
    emitWords v b outB maxV =
      ([(v >>> (b - outB)) &&& maxV, (v >>> (b - 2 * outB)) &&& maxV], b - 2 * outB) := by
  rw [emitWords_ge v b outB maxV h1 (by omega),
    emitWords_one v (b - outB) outB maxV h1 (by omega) (by omega)]
  have h4 : b - outB - outB = b - 2 * outB := by omega
  rw [h4]

/-! ## beNum lemmas -/

theorem beNum_nil (base : Nat) : beNum base [] = 0 := rfl

theorem beNum_append_singleton (base : Nat) (ds : List Nat) (d : Nat) :
    beNum base (ds ++ [d]) = beNum base ds * base + d := by
  simp [beNum, List.foldl_append]

theorem beNum_foldl_shift (base : Nat) (ds : List Nat) :
    ∀ a : Nat, List.foldl (fun acc d => acc * base + d) a ds = a * base ^ ds.length + beNum base ds := by
  induction ds with
  | nil => intro a; simp [beNum]
  | cons d ds ih =>
    intro a
    simp only [List.foldl_cons, List.length_cons]
    rw [ih (a * base + d)]
    have hb : beNum base (d :: ds) = d * base ^ ds.length + beNum base ds := by
      simp only [beNum, List.foldl_cons]
      rw [show List.foldl (fun acc x => acc * base + x) (0 * base + d) ds =
        List.foldl (fun acc x => acc * base + x) d ds by norm_num]
      exact ih d
    rw [hb]
    ring

theorem beNum_cons (base d : Nat) (ds : List Nat) :
    beNum base (d :: ds) = d * base ^ ds.length + beNum base ds := by
  simp only [beNum, List.foldl_cons]
  rw [show (0 * base + d) = d by norm_num]
  exact beNum_foldl_shift base ds d

theorem beNum_lt (base : Nat) (_hbase : 0 < base) (ds : List Nat) (h : ∀ d ∈ ds, d < base) :
    beNum base ds < base ^ ds.length := by
  induction ds with
  | nil => simp [beNum]
  | cons d ds ih =>
    rw [beNum_cons]
    simp only [List.length_cons]
    have h1 : d < base := h d (by simp)
    have h2 : beNum base ds < base ^ ds.length := ih (fun x hx => h x (by simp [hx]))
    calc d * base ^ ds.length + beNum base ds
        < d * base ^ ds.length + base ^ ds.length := by omega
      _ = (d + 1) * base ^ ds.length := by ring
      _ ≤ base * base ^ ds.length := Nat.mul_le_mul_right _ (by omega)
      _ = base ^ (ds.length + 1) := by ring

theorem beNum_inj (base : Nat) (hbase : 0 < base) (xs ys : List Nat)
    (hx : ∀ d ∈ xs, d < base) (hy : ∀ d ∈ ys, d < base)
    (hlen : xs.length = ys.length) (h : beNum base xs = beNum base ys) : xs = ys := by
  induction xs generalizing ys with
  | nil =>
    cases ys with
    | nil => rfl
    | cons y ys => simp at hlen
  | cons x xs ih =>
    cases ys with
    | nil => simp at hlen
    | cons y ys =>
      simp only [List.length_cons, Nat.add_right_cancel_iff] at hlen
      rw [beNum_cons, beNum_cons, hlen] at h
      have hx1 : x < base := hx x (by simp)
      have hy1 : y < base := hy y (by simp)
      have hxs : beNum base xs < base ^ ys.length := by
        rw [← hlen]; exact beNum_lt base hbase xs (fun d hd => hx d (by simp [hd]))
      have hys : beNum base ys < base ^ ys.length := beNum_lt base hbase ys (fun d hd => hy d (by simp [hd]))
      have hxy : x = y := by
        by_contra hne
        rcases Nat.lt_or_ge x y with hlt | hge
        · have : x * base ^ ys.length + base ^ ys.length ≤ y * base ^ ys.length := by
            calc x * base ^ ys.length + base ^ ys.length = (x + 1) * base ^ ys.length := by ring
              _ ≤ y * base ^ ys.length := Nat.mul_le_mul_right _ (by omega)
          omega
        · have hgt : y < x := by omega
          have : y * base ^ ys.length + base ^ ys.length ≤ x * base ^ ys.length := by
            calc y * base ^ ys.length + base ^ ys.length = (y + 1) * base ^ ys.length := by ring
              _ ≤ x * base ^ ys.length := Nat.mul_le_mul_right _ (by omega)
          omega
      subst hxy
      have hrest : beNum base xs = beNum base ys := by omega
      rw [ih ys (fun d hd => hx d (by simp [hd])) (fun d hd => hy d (by simp [hd])) hlen hrest]

/-- Low-bit disjoint or is addition: shifting by eight then or-ing a byte. -/
theorem shiftLeft8_or (v b : Nat) (hb : b < 256) : (v <<< 8) ||| b = v * 256 + b := by
  have h := shiftLeft_or_low v b 8 (by simpa using hb)
  simpa using h

/-- Low-bit disjoint or is addition: shifting by five then or-ing a 5-bit word. -/
theorem shiftLeft5_or (v w : Nat) (hw : w < 32) : (v <<< 5) ||| w = v * 32 + w := by
  have h := shiftLeft_or_low v w 5 (by simpa using hw)
  simpa using h

/-- Two-element append for beNum. -/
theorem beNum_append_pair (base : Nat) (ds : List Nat) (d1 d2 : Nat) :
    beNum base (ds ++ [d1, d2]) = (beNum base ds * base + d1) * base + d2 := by
  simp [beNum, List.foldl_append]

/-- State invariant of the 8-to-5 conversion fold: fewer than five bits
remain buffered, all emitted words are 5-bit values, the emitted words
followed by the buffered bits recompose the input bytes as a base-256
numeral, and the bit count balances. -/
theorem convertCore85 (p : List Nat) (hb : ∀ b ∈ p, b < 256) :
    (convertCore p 8 5 31).2.1 < 5 ∧
    (∀ w ∈ (convertCore p 8 5 31).2.2, w < 32) ∧
    beNum 32 (convertCore p 8 5 31).2.2 * 2 ^ (convertCore p 8 5 31).2.1 +
      (convertCore p 8 5 31).1 % 2 ^ (convertCore p 8 5 31).2.1 = beNum 256 p ∧
    5 * (convertCore p 8 5 31).2.2.length + (convertCore p 8 5 31).2.1 = 8 * p.length := by
  induction p using List.reverseRecOn with
  | nil => simp [convertCore, beNum]
  | append_singleton q b ih =>
    have hbq : ∀ x ∈ q, x < 256 := fun x hx => hb x (by simp [hx])
    have hbb : b < 256 := hb b (by simp)
    obtain ⟨ih1, ih2, ih3, ih4⟩ := ih hbq
    have hstep : convertCore (q ++ [b]) 8 5 31 =
        (((convertCore q 8 5 31).1 <<< 8) ||| b,
          (emitWords (((convertCore q 8 5 31).1 <<< 8) ||| b)
            ((convertCore q 8 5 31).2.1 + 8) 5 31).2,
          (convertCore q 8 5 31).2.2 ++
            (emitWords (((convertCore q 8 5 31).1 <<< 8) ||| b)
              ((convertCore q 8 5 31).2.1 + 8) 5 31).1) := by
      simp only [convertCore, List.foldl_append, List.foldl_cons, List.foldl_nil]
    rcases hq : convertCore q 8 5 31 with ⟨v, bits, ws⟩
    rw [hq] at hstep ih1 ih2 ih3 ih4
    dsimp only at hstep ih1 ih2 ih3 ih4
    rw [hstep]
    dsimp only
    rw [shiftLeft8_or v b hbb, beNum_append_singleton]
    interval_cases bits
    · rw [emitWords_one _ (0 + 8) 5 31 (by norm_num) (by norm_num) (by norm_num)]
      refine ⟨by norm_num, ?_, ?_, ?_⟩
      · intro w hw
        dsimp only at hw
        rcases List.mem_append.mp hw with h | h
        · exact ih2 w h
        · rw [List.mem_singleton.mp h, and31_eq_mod]; omega
      · dsimp only
        rw [beNum_append_singleton]
        simp only [Nat.shiftRight_eq_div_pow, and31_eq_mod] at ih3 ⊢
        norm_num at ih3 ⊢
        omega
      · dsimp only
        simp only [List.length_append, List.length_cons, List.length_nil]
        omega
    · rw [emitWords_one _ (1 + 8) 5 31 (by norm_num) (by norm_num) (by norm_num)]
      refine ⟨by norm_num, ?_, ?_, ?_⟩
      · intro w hw
        dsimp only at hw
        rcases List.mem_append.mp hw with h | h
        · exact ih2 w h
        · rw [List.mem_singleton.mp h, and31_eq_mod]; omega
      · dsimp only
        rw [beNum_append_singleton]
        simp only [Nat.shiftRight_eq_div_pow, and31_eq_mod] at ih3 ⊢
        norm_num at ih3 ⊢
        omega
      · dsimp only
        simp only [List.length_append, List.length_cons, List.length_nil]
        omega
    · rw [emitWords_two _ (2 + 8) 5 31 (by norm_num) (by norm_num) (by norm_num)]
      refine ⟨by norm_num, ?_, ?_, ?_⟩
      · intro w hw
        dsimp only at hw
        rcases List.mem_append.mp hw with h | h
        · exact ih2 w h
        · rcases List.mem_cons.mp h with h1 | h1
          · rw [h1, and31_eq_mod]; omega
          · rw [List.mem_singleton.mp h1, and31_eq_mod]; omega
      · dsimp only
        rw [beNum_append_pair]
        simp only [Nat.shiftRight_eq_div_pow, and31_eq_mod] at ih3 ⊢
        norm_num at ih3 ⊢
        omega
      · dsimp only
        simp only [List.length_append, List.length_cons, List.length_nil]
        omega
    · rw [emitWords_two _ (3 + 8) 5 31 (by norm_num) (by norm_num) (by norm_num)]
      refine ⟨by norm_num, ?_, ?_, ?_⟩
      · intro w hw
        dsimp only at hw
        rcases List.mem_append.mp hw with h | h
        · exact ih2 w h
        · rcases List.mem_cons.mp h with h1 | h1
          · rw [h1, and31_eq_mod]; omega
          · rw [List.mem_singleton.mp h1, and31_eq_mod]; omega
      · dsimp only
        rw [beNum_append_pair]
        simp only [Nat.shiftRight_eq_div_pow, and31_eq_mod] at ih3 ⊢
        norm_num at ih3 ⊢
        omega
      · dsimp only
        simp only [List.length_append, List.length_cons, List.length_nil]
        omega
    · rw [emitWords_two _ (4 + 8) 5 31 (by norm_num) (by norm_num) (by norm_num)]
      refine ⟨by norm_num, ?_, ?_, ?_⟩
      · intro w hw
        dsimp only at hw
        rcases List.mem_append.mp hw with h | h
        · exact ih2 w h
        · rcases List.mem_cons.mp h with h1 | h1
          · rw [h1, and31_eq_mod]; omega
          · rw [List.mem_singleton.mp h1, and31_eq_mod]; omega
      · dsimp only
        rw [beNum_append_pair]
        simp only [Nat.shiftRight_eq_div_pow, and31_eq_mod] at ih3 ⊢
        norm_num at ih3 ⊢
        omega
      · dsimp only
        simp only [List.length_append, List.length_cons, List.length_nil]
        omega

/-- State invariant of the 5-to-8 conversion fold (fromWords direction):
fewer than eight bits remain buffered, all emitted bytes are below 256, the
emitted bytes followed by the buffered bits recompose the input words as a
base-32 numeral, and the bit count balances. -/
theorem convertCore58 (ws : List Nat) (hw : ∀ w ∈ ws, w < 32) :
    (convertCore ws 5 8 255).2.1 < 8 ∧
    (∀ o ∈ (convertCore ws 5 8 255).2.2, o < 256) ∧
    beNum 256 (convertCore ws 5 8 255).2.2 * 2 ^ (convertCore ws 5 8 255).2.1 +
      (convertCore ws 5 8 255).1 % 2 ^ (convertCore ws 5 8 255).2.1 = beNum 32 ws ∧
    8 * (convertCore ws 5 8 255).2.2.length + (convertCore ws 5 8 255).2.1 = 5 * ws.length := by
  induction ws using List.reverseRecOn with
  | nil => simp [convertCore, beNum]
  | append_singleton q b ih =>
    have hbq : ∀ x ∈ q, x < 32 := fun x hx => hw x (by simp [hx])
    have hbb : b < 32 := hw b (by simp)
    obtain ⟨ih1, ih2, ih3, ih4⟩ := ih hbq
    have hstep : convertCore (q ++ [b]) 5 8 255 =
        (((convertCore q 5 8 255).1 <<< 5) ||| b,
          (emitWords (((convertCore q 5 8 255).1 <<< 5) ||| b)
            ((convertCore q 5 8 255).2.1 + 5) 8 255).2,
          (convertCore q 5 8 255).2.2 ++
            (emitWords (((convertCore q 5 8 255).1 <<< 5) ||| b)
              ((convertCore q 5 8 255).2.1 + 5) 8 255).1) := by
      simp only [convertCore, List.foldl_append, List.foldl_cons, List.foldl_nil]
    rcases hq : convertCore q 5 8 255 with ⟨v, bits, os⟩
    rw [hq] at hstep ih1 ih2 ih3 ih4
    dsimp only at hstep ih1 ih2 ih3 ih4
    rw [hstep]
    dsimp only
    rw [shiftLeft5_or v b hbb, beNum_append_singleton]
    interval_cases bits
    · rw [emitWords_lt _ (0 + 5) 8 255 (by norm_num)]
      refine ⟨by norm_num, ?_, ?_, ?_⟩
      · intro o ho
        dsimp only at ho
        rw [List.append_nil] at ho
        exact ih2 o ho
      · dsimp only
        rw [List.append_nil]
        norm_num at ih3 ⊢
        omega
      · dsimp only
        simp only [List.length_append, List.length_cons, List.length_nil]
        omega
    · rw [emitWords_lt _ (1 + 5) 8 255 (by norm_num)]
      refine ⟨by norm_num, ?_, ?_, ?_⟩
      · intro o ho
        dsimp only at ho
        rw [List.append_nil] at ho
        exact ih2 o ho
      · dsimp only
        rw [List.append_nil]
        norm_num at ih3 ⊢
        omega
      · dsimp only
        simp only [List.length_append, List.length_cons, List.length_nil]
        omega
    · rw [emitWords_lt _ (2 + 5) 8 255 (by norm_num)]
      refine ⟨by norm_num, ?_, ?_, ?_⟩
      · intro o ho
        dsimp only at ho
        rw [List.append_nil] at ho
        exact ih2 o ho
      · dsimp only
        rw [List.append_nil]
        norm_num at ih3 ⊢
        omega
      · dsimp only
        simp only [List.length_append, List.length_cons, List.length_nil]
        omega
    · rw [emitWords_one _ (3 + 5) 8 255 (by norm_num) (by norm_num) (by norm_num)]
      refine ⟨by norm_num, ?_, ?_, ?_⟩
      · intro o ho
        dsimp only at ho
        rcases List.mem_append.mp ho with h | h
        · exact ih2 o h
        · rw [List.mem_singleton.mp h, and255_eq_mod]; omega
      · dsimp only
        rw [beNum_append_singleton]
        simp only [Nat.shiftRight_eq_div_pow, and255_eq_mod] at ih3 ⊢
        norm_num at ih3 ⊢
        omega
      · dsimp only
        simp only [List.length_append, List.length_cons, List.length_nil]
        omega
    · rw [emitWords_one _ (4 + 5) 8 255 (by norm_num) (by norm_num) (by norm_num)]
      refine ⟨by norm_num, ?_, ?_, ?_⟩
      · intro o ho
        dsimp only at ho
        rcases List.mem_append.mp ho with h | h
        · exact ih2 o h
        · rw [List.mem_singleton.mp h, and255_eq_mod]; omega
      · dsimp only
        rw [beNum_append_singleton]
        simp only [Nat.shiftRight_eq_div_pow, and255_eq_mod] at ih3 ⊢
        norm_num at ih3 ⊢
        omega
      · dsimp only
        simp only [List.length_append, List.length_cons, List.length_nil]
        omega
    · rw [emitWords_one _ (5 + 5) 8 255 (by norm_num) (by norm_num) (by norm_num)]
      refine ⟨by norm_num, ?_, ?_, ?_⟩
      · intro o ho
        dsimp only at ho
        rcases List.mem_append.mp ho with h | h
        · exact ih2 o h
        · rw [List.mem_singleton.mp h, and255_eq_mod]; omega
      · dsimp only
        rw [beNum_append_singleton]
        simp only [Nat.shiftRight_eq_div_pow, and255_eq_mod] at ih3 ⊢
        norm_num at ih3 ⊢
        omega
      · dsimp only
        simp only [List.length_append, List.length_cons, List.length_nil]
        omega
    · rw [emitWords_one _ (6 + 5) 8 255 (by norm_num) (by norm_num) (by norm_num)]
      refine ⟨by norm_num, ?_, ?_, ?_⟩
      · intro o ho
        dsimp only at ho
        rcases List.mem_append.mp ho with h | h
        · exact ih2 o h
        · rw [List.mem_singleton.mp h, and255_eq_mod]; omega
      · dsimp only
        rw [beNum_append_singleton]
        simp only [Nat.shiftRight_eq_div_pow, and255_eq_mod] at ih3 ⊢
        norm_num at ih3 ⊢
        omega
      · dsimp only
        simp only [List.length_append, List.length_cons, List.length_nil]
        omega
    · rw [emitWords_one _ (7 + 5) 8 255 (by norm_num) (by norm_num) (by norm_num)]
      refine ⟨by norm_num, ?_, ?_, ?_⟩
      · intro o ho
        dsimp only at ho
        rcases List.mem_append.mp ho with h | h
        · exact ih2 o h
        · rw [List.mem_singleton.mp h, and255_eq_mod]; omega
      · dsimp only
        rw [beNum_append_singleton]
        simp only [Nat.shiftRight_eq_div_pow, and255_eq_mod] at ih3 ⊢
        norm_num at ih3 ⊢
        omega
      · dsimp only
        simp only [List.length_append, List.length_cons, List.length_nil]
        omega

/-- Every word the emission loop produces is masked by maxV. -/
theorem emitWords_le (v b outB maxV : Nat) : ∀ w ∈ (emitWords v b outB maxV).1, w ≤ maxV := by
  induction b using Nat.strong_induction_on with
  | _ b ih =>
    by_cases h : 0 < outB ∧ outB ≤ b
    · rw [emitWords_ge _ _ _ _ h.1 h.2]
      intro w hw
      rcases List.mem_cons.mp hw with h1 | h1
      · rw [h1]; exact Nat.and_le_right
      · exact ih (b - outB) (by omega) w h1
    · rw [emitWords_not _ _ _ _ h]
      intro w hw
      simp at hw

/-- Every word the conversion fold emits is masked by maxV. -/
theorem convertCore_words_le (data : List Nat) (inB outB maxV : Nat) :
    ∀ w ∈ (convertCore data inB outB maxV).2.2, w ≤ maxV := by
  induction data using List.reverseRecOn with
  | nil => intro w hw; simp [convertCore] at hw
  | append_singleton q b ih =>
    have hstep : convertCore (q ++ [b]) inB outB maxV =
        (((convertCore q inB outB maxV).1 <<< inB) ||| b,
          (emitWords (((convertCore q inB outB maxV).1 <<< inB) ||| b)
            ((convertCore q inB outB maxV).2.1 + inB) outB maxV).2,
          (convertCore q inB outB maxV).2.2 ++
            (emitWords (((convertCore q inB outB maxV).1 <<< inB) ||| b)
              ((convertCore q inB outB maxV).2.1 + inB) outB maxV).1) := by
      simp only [convertCore, List.foldl_append, List.foldl_cons, List.foldl_nil]
    rw [hstep]
    intro w hw
    dsimp only at hw
    rcases List.mem_append.mp hw with h1 | h1
    · exact ih w h1
    · exact emitWords_le _ _ _ _ w h1

/-- Every word produced by toWords is a 5-bit value, for any input. -/
theorem toWords_lt32 (bytes : List Nat) : ∀ w ∈ toWords bytes, w < 32 := by
  intro w hw
  rw [toWords] at hw
  by_cases h : 0 < (convertCore bytes 8 5 31).2.1
  · rw [if_pos h] at hw
    rcases List.mem_append.mp hw with h1 | h1
    · have := convertCore_words_le bytes 8 5 31 w h1; omega
    · have : w = ((convertCore bytes 8 5 31).1 <<< (5 - (convertCore bytes 8 5 31).2.1)) &&& 31 :=
        List.mem_singleton.mp h1
      rw [this]
      have := Nat.and_le_right
        (n := (convertCore bytes 8 5 31).1 <<< (5 - (convertCore bytes 8 5 31).2.1)) (m := 31)
      omega
  · rw [if_neg h] at hw
    have := convertCore_words_le bytes 8 5 31 w hw; omega

/-- For inputs whose bit count is a multiple of five (such as 20-byte
programs) toWords emits no padding word, its length is 8/5 of the byte
count, and it preserves the big-endian numeric value. -/
theorem toWords_spec (p : List Nat) (hb : ∀ b ∈ p, b < 256) (hlen : p.length = 20) :
    (toWords p).length = 32 ∧ beNum 32 (toWords p) = beNum 256 p := by
  obtain ⟨h1, _h2, h3, h4⟩ := convertCore85 p hb
  rw [hlen] at h4
  have hbits : (convertCore p 8 5 31).2.1 = 0 := by omega
  have htw : toWords p = (convertCore p 8 5 31).2.2 := by
    rw [toWords]
    rw [hbits]
    simp
  rw [htw]
  constructor
  · omega
  · rw [hbits] at h3
    simp only [Nat.pow_zero, Nat.mul_one, Nat.mod_one, Nat.add_zero] at h3
    omega

/-- Round trip of the 5-bit repacking: fromWords inverts toWords on 20-byte
programs. -/
theorem fromWords_toWords (p : List Nat) (hb : ∀ b ∈ p, b < 256) (hlen : p.length = 20) :
    fromWords (toWords p) = Except.ok p := by
  obtain ⟨hl, hv⟩ := toWords_spec p hb hlen
  have hw32 := toWords_lt32 p
  obtain ⟨g1, g2, g3, g4⟩ := convertCore58 (toWords p) hw32
  rw [hl] at g4
  have gbits : (convertCore (toWords p) 5 8 255).2.1 = 0 := by omega
  have glen : (convertCore (toWords p) 5 8 255).2.2.length = 20 := by omega
  rw [gbits] at g3
  simp only [Nat.pow_zero, Nat.mul_one, Nat.mod_one, Nat.add_zero] at g3
  rw [fromWords]
  rw [gbits]
  rw [if_neg (by norm_num)]
  have hpad : ((convertCore (toWords p) 5 8 255).1 <<< (8 - 0)) &&& 255 = 0 := by
    rw [and255_eq_mod, Nat.shiftLeft_eq]
    norm_num
  rw [if_neg (by rw [hpad]; exact fun h => h rfl)]
  have : (convertCore (toWords p) 5 8 255).2.2 = p := by
    apply beNum_inj 256 (by norm_num) _ _ g2 hb (by omega)
    rw [g3, hv]
  rw [this]

/-! ## Checksum algebra of polymodStep -/

theorem shiftLeft_xor_distrib (a b n : Nat) : (a ^^^ b) <<< n = (a <<< n) ^^^ (b <<< n) := by
  apply Nat.eq_of_testBit_eq
  intro i
  simp only [Nat.testBit_shiftLeft, Nat.testBit_xor]
  by_cases h : n ≤ i <;> simp [h]

theorem shiftRight_xor_distrib (a b n : Nat) : (a ^^^ b) >>> n = (a >>> n) ^^^ (b >>> n) := by
  apply Nat.eq_of_testBit_eq
  intro i
  simp [Nat.testBit_shiftRight, Nat.testBit_xor]

theorem ite_gen_xor (p q : Bool) (G : Nat) :
    (if (p ^^ q) = true then G else 0) =
      (if p = true then G else 0) ^^^ (if q = true then G else 0) := by
  cases p <;> cases q <;> simp

/-- polymodStep is GF(2)-linear: it distributes over xor. -/
theorem polymodStep_linear (x y : Nat) :
    polymodStep (x ^^^ y) = polymodStep x ^^^ polymodStep y := by
  simp only [polymodStep]
  simp only [shiftRight_xor_distrib, Nat.testBit_xor, Nat.and_xor_distrib_right,
    shiftLeft_xor_distrib, ite_gen_xor]
  ac_rfl

/-- On inputs below 2^25 polymodStep is a plain shift by five. -/
theorem polymodStep_small (w : Nat) (hw : w < 2 ^ 25) : polymodStep w = w <<< 5 := by
  simp only [polymodStep]
  have h25 : w >>> 25 = 0 := by
    rw [Nat.shiftRight_eq_div_pow]
    exact Nat.div_eq_of_lt hw
  have hand : w &&& 0x1ffffff = w := by
    have h := Nat.and_pow_two_sub_one_of_lt_two_pow hw
    norm_num at h
    exact h
  rw [h25, hand]
  simp [Nat.zero_testBit]

/-- Variant for 5-bit values. -/
theorem polymodStep_small32 (w : Nat) (hw : w < 32) : polymodStep w = w <<< 5 :=
  polymodStep_small w (by omega)

/-- Shifting a 5-bit value by at most 20 keeps it below 2^25, so a further
polymodStep is again a plain shift. -/
theorem polymodStep_shift (w k : Nat) (hw : w < 32) (hk : k ≤ 20) :
    polymodStep (w <<< k) = w <<< (k + 5) := by
  have hlt : w <<< k < 2 ^ 25 := by
    rw [Nat.shiftLeft_eq]
    calc w * 2 ^ k < 32 * 2 ^ k := by
          have hpos : 0 < 2 ^ k := Nat.pos_pow_of_pos k (by norm_num)
          exact (Nat.mul_lt_mul_right hpos).mpr hw
      _ = 2 ^ (k + 5) := by rw [Nat.pow_add]; ring
      _ ≤ 2 ^ 25 := Nat.pow_le_pow_right (by norm_num) (by omega)
  rw [polymodStep_small _ hlt, Nat.shiftLeft_eq, Nat.shiftLeft_eq, Nat.shiftLeft_eq,
    Nat.pow_add]
  ring

/-- polymodStep output always fits in 30 bits. -/
theorem polymodStep_lt (c : Nat) : polymodStep c < 2 ^ 30 := by
  simp only [polymodStep]
  have h1 : ((c &&& 0x1ffffff) <<< 5) < 2 ^ 30 := by
    rw [Nat.shiftLeft_eq]
    have h2 : c &&& 0x1ffffff ≤ 0x1ffffff := Nat.and_le_right
    calc (c &&& 0x1ffffff) * 2 ^ 5 ≤ 0x1ffffff * 2 ^ 5 := Nat.mul_le_mul_right _ h2
      _ < 2 ^ 30 := by norm_num
  have hif : ∀ (p : Prop) [Decidable p] (G : Nat), G < 2 ^ 30 → (if p then G else 0) < 2 ^ 30 := by
    intro p _ G hG
    by_cases hp : p
    · simp only [if_pos hp]; omega
    · simp only [if_neg hp]; omega
  apply Nat.xor_lt_two_pow
  apply Nat.xor_lt_two_pow
  apply Nat.xor_lt_two_pow
  apply Nat.xor_lt_two_pow
  apply Nat.xor_lt_two_pow h1
  all_goals apply hif _ _ (by norm_num)

/-- Iterated polymodStep output fits in 30 bits. -/
theorem pmN_lt (n c : Nat) (hc : c < 2 ^ 30) : pmN n c < 2 ^ 30 := by
  induction n generalizing c with
  | zero => exact hc
  | succ n ih => exact ih (polymodStep c) (polymodStep_lt c)

/-- The checksum fold keeps the state below 2^30 whenever all absorbed
values do. -/
theorem foldl_pm_lt {α : Type} (l : List α) (f : α → Nat) (hf : ∀ a ∈ l, f a < 2 ^ 30) :
    ∀ c, c < 2 ^ 30 → List.foldl (fun c a => polymodStep c ^^^ f a) c l < 2 ^ 30 := by
  induction l with
  | nil => intro c hc; simpa using hc
  | cons a l ih =>
    intro c hc
    simp only [List.foldl_cons]
    exact ih (fun x hx => hf x (by simp [hx])) _
      (Nat.xor_lt_two_pow (polymodStep_lt c) (hf a (by simp)))

/-- The word-absorbing checksum fold keeps the state below 2^30. -/
theorem foldl_pmw_lt (l : List Nat) (hl : ∀ x ∈ l, x < 2 ^ 30) (c : Nat) (hc : c < 2 ^ 30) :
    List.foldl (fun c x => polymodStep c ^^^ x) c l < 2 ^ 30 := by
  have h := foldl_pm_lt l (fun x => x) hl c hc
  simpa using h

/-- Every checksum state hrpChkCore returns fits in 30 bits. -/
theorem hrpChk_lt (hrp : List Char) (n : Nat) (h : hrpChkCore hrp = Except.ok n) :
    n < 2 ^ 30 := by
  rw [hrpChkCore] at h
  by_cases hall : hrp.all (fun c => decide (33 ≤ c.toNat) && decide (c.toNat ≤ 126))
  · rw [if_pos hall] at h
    have hchar : ∀ c : Char, c.toNat < 2 ^ 32 := by
      intro c
      have := c.val.toNat_lt
      simpa using this
    have h1 : List.foldl (fun c ch => polymodStep c ^^^ (ch.toNat >>> 5)) 1 hrp < 2 ^ 30 := by
      apply foldl_pm_lt hrp (fun ch => ch.toNat >>> 5) _ 1 (by norm_num)
      intro a _
      show a.toNat >>> 5 < 2 ^ 30
      rw [Nat.shiftRight_eq_div_pow]
      have := hchar a
      omega
    have h2 : List.foldl (fun c ch => polymodStep c ^^^ (ch.toNat &&& 31))
        (polymodStep (List.foldl (fun c ch => polymodStep c ^^^ (ch.toNat >>> 5)) 1 hrp)) hrp < 2 ^ 30 := by
      apply foldl_pm_lt hrp (fun ch => ch.toNat &&& 31) _ _ (polymodStep_lt _)
      intro a _
      show a.toNat &&& 31 < 2 ^ 30
      have : a.toNat &&& 31 ≤ 31 := Nat.and_le_right
      omega
    simp only [Except.ok.injEq] at h
    rw [← h]
    exact h2
  · rw [if_neg hall] at h
    simp at h

/-- Masking with 31 always yields a 5-bit value. -/
theorem and31_lt (x : Nat) : x &&& 31 < 32 := by
  have := Nat.and_le_right (n := x) (m := 31)
  omega

/-- Closed form of the checksum fold over six words. -/
theorem foldl_step6 (c w0 w1 w2 w3 w4 w5 : Nat) (h0 : w0 < 32) (h1 : w1 < 32)
    (h2 : w2 < 32) (h3 : w3 < 32) (h4 : w4 < 32) :
    List.foldl (fun c v => polymodStep c ^^^ v) c [w0, w1, w2, w3, w4, w5] =
      pmN 6 c ^^^ ((w0 <<< 25) ^^^ ((w1 <<< 20) ^^^ ((w2 <<< 15) ^^^
        ((w3 <<< 10) ^^^ ((w4 <<< 5) ^^^ w5))))) := by
  simp only [List.foldl_cons, List.foldl_nil]
  simp only [polymodStep_linear]
  rw [show pmN 6 c = polymodStep (polymodStep (polymodStep (polymodStep
    (polymodStep (polymodStep c))))) from rfl]
  rw [polymodStep_small32 w0 h0, polymodStep_shift w0 5 h0 (by norm_num),
    polymodStep_shift w0 10 h0 (by norm_num), polymodStep_shift w0 15 h0 (by norm_num),
    polymodStep_shift w0 20 h0 (by norm_num)]
  rw [polymodStep_small32 w1 h1, polymodStep_shift w1 5 h1 (by norm_num),
    polymodStep_shift w1 10 h1 (by norm_num), polymodStep_shift w1 15 h1 (by norm_num)]
  rw [polymodStep_small32 w2 h2, polymodStep_shift w2 5 h2 (by norm_num),
    polymodStep_shift w2 10 h2 (by norm_num)]
  rw [polymodStep_small32 w3 h3, polymodStep_shift w3 5 h3 (by norm_num)]
  rw [polymodStep_small32 w4 h4]
  rw [show (20 + 5 : Nat) = 25 from rfl, show (15 + 5 : Nat) = 20 from rfl,
    show (10 + 5 : Nat) = 15 from rfl, show (5 + 5 : Nat) = 10 from rfl]
  generalize polymodStep (polymodStep (polymodStep (polymodStep
    (polymodStep (polymodStep c))))) = A
  generalize w0 <<< 25 = a0
  generalize w1 <<< 20 = a1
  generalize w2 <<< 15 = a2
  generalize w3 <<< 10 = a3
  generalize w4 <<< 5 = a4
  ac_rfl

/-- Bits of the constant 31: exactly the first five. -/
theorem testBit31 (k : Nat) : (31 : Nat).testBit k = decide (k < 5) := by
  by_cases h : k < 5
  · interval_cases k <;> decide
  · rw [Nat.testBit_lt_two_pow]
    · simp [h]
    · calc (31 : Nat) < 32 := by norm_num
        _ = 2 ^ 5 := by norm_num
        _ ≤ 2 ^ k := Nat.pow_le_pow_right (by norm_num) (by omega)

/-- The six 5-bit chunks of a 30-bit value, each shifted back into place,
xor together to the value itself. -/
theorem recompose30 (m : Nat) (hm : m < 2 ^ 30) :
    ((m >>> 25) &&& 31) <<< 25 ^^^ (((m >>> 20) &&& 31) <<< 20 ^^^
      (((m >>> 15) &&& 31) <<< 15 ^^^ (((m >>> 10) &&& 31) <<< 10 ^^^
        (((m >>> 5) &&& 31) <<< 5 ^^^ ((m >>> 0) &&& 31))))) = m := by
  apply Nat.eq_of_testBit_eq
  intro j
  rcases Nat.lt_or_ge j 30 with hj | hj
  · interval_cases j <;>
      (simp only [Nat.testBit_xor, Nat.testBit_shiftLeft, Nat.testBit_shiftRight,
        Nat.testBit_and, testBit31]
       norm_num)
  · have hmj : m.testBit j = false :=
      Nat.testBit_lt_two_pow (lt_of_lt_of_le hm (Nat.pow_le_pow_right (by norm_num) hj))
    simp [Nat.testBit_xor, Nat.testBit_shiftLeft, Nat.testBit_shiftRight,
      Nat.testBit_and, testBit31, hmj,
      show ¬(j - 25 < 5) from by omega, show ¬(j - 20 < 5) from by omega,
      show ¬(j - 15 < 5) from by omega, show ¬(j - 10 < 5) from by omega,
      show ¬(j - 5 < 5) from by omega, show ¬(j < 5) from by omega]

/-- Absorbing the six checksum words built from state c and constant K
drives the checksum state to exactly K — the core bech32 design property. -/
theorem checksum_fold (c K : Nat) (hc : c < 2 ^ 30) (hK : K < 2 ^ 30) :
    List.foldl (fun c v => polymodStep c ^^^ v) c
      [((pmN 6 c ^^^ K) >>> 25) &&& 31, ((pmN 6 c ^^^ K) >>> 20) &&& 31,
        ((pmN 6 c ^^^ K) >>> 15) &&& 31, ((pmN 6 c ^^^ K) >>> 10) &&& 31,
        ((pmN 6 c ^^^ K) >>> 5) &&& 31, ((pmN 6 c ^^^ K) >>> 0) &&& 31] = K := by
  have hm : pmN 6 c ^^^ K < 2 ^ 30 := Nat.xor_lt_two_pow (pmN_lt 6 c hc) hK
  rw [foldl_step6 _ _ _ _ _ _ _ (and31_lt _) (and31_lt _) (and31_lt _) (and31_lt _) (and31_lt _)]
  rw [recompose30 _ hm]
  rw [← Nat.xor_assoc, Nat.xor_self, Nat.zero_xor]

/-! ## Character-level facts about the bech32 alphabet -/

/-- Checksum state of the fixed human-readable part "qtc". -/
def qtcChk : Nat :=
  match hrpChkCore qtcChars with
  | Except.ok n => n
  | Except.error _ => 0

theorem hrpChk_qtc : hrpChkCore qtcChars = Except.ok qtcChk := rfl

theorem qtcChk_lt : qtcChk < 2 ^ 30 := hrpChk_lt qtcChars qtcChk hrpChk_qtc

theorem alphabetMap_alphabetChar (w : Nat) (hw : w < 32) :
    alphabetMap (alphabetChar w) = some w := by
  interval_cases w <;> decide

theorem alphabetChar_toLower (w : Nat) (hw : w < 32) :
    (alphabetChar w).toLower = alphabetChar w := by
  interval_cases w <;> decide

theorem alphabetChar_ne_one (w : Nat) (hw : w < 32) : alphabetChar w ≠ '1' := by
  interval_cases w <;> decide

theorem lastIndexOf_not_mem (cs : List Char) (t : Char) (h : ∀ c ∈ cs, c ≠ t) :
    lastIndexOf cs t = none := by
  induction cs with
  | nil => rfl
  | cons c cs ih =>
    have hc : c ≠ t := h c (by simp)
    rw [lastIndexOf, ih (fun x hx => h x (by simp [hx]))]
    simp [hc]

theorem lastIndexOf_qtc1 (ds : List Char) (h : ∀ c ∈ ds, c ≠ '1') :
    lastIndexOf ('q' :: 't' :: 'c' :: '1' :: ds) '1' = some 3 := by
  have h0 : lastIndexOf ds '1' = none := lastIndexOf_not_mem ds '1' h
  simp [lastIndexOf, h0]


theorem mapAlphabet_map (ws : List Nat) (h : ∀ w ∈ ws, w < 32) :
    mapAlphabet (ws.map alphabetChar) = some ws := by
  induction ws with
  | nil => rfl
  | cons w ws ih =>
    rw [List.map_cons, mapAlphabet, alphabetMap_alphabetChar w (h w (by simp)),
      ih (fun x hx => h x (by simp [hx]))]

theorem map_toLower_id (cs : List Char) (h : ∀ c ∈ cs, c.toLower = c) :
    cs.map Char.toLower = cs := by
  rw [List.map_congr_left h]
  simp

/-- Round trip of the npm codec: decoding an encoded address returns the
human-readable part and the original words, for any checksum constant. -/
theorem decode_encode (K : Nat) (hK : K < 2 ^ 30) (ws : List Nat) (hws : ∀ w ∈ ws, w < 32)
    (hlen : ws.length ≤ 80) (enc : List Char) (henc : encodeCore K qtcChars ws = Except.ok enc) :
    decodeCore K enc = Except.ok (qtcChars, ws) := by
  have hqtclower : qtcChars.map Char.toLower = qtcChars := by decide
  have hall : ws.all (fun x => decide (x < 32)) = true := by
    rw [List.all_eq_true]
    intro x hx
    exact decide_eq_true (hws x hx)
  have hlim : ¬(qtcChars.length + 7 + ws.length > 90) := by
    have h3 : qtcChars.length = 3 := rfl
    omega
  simp only [encodeCore] at henc
  rw [if_neg hlim, hqtclower, hrpChk_qtc] at henc
  simp only [hall, if_true] at henc
  simp only [Except.ok.injEq] at henc
  subst henc
  set c := List.foldl (fun c x => polymodStep c ^^^ x) qtcChk ws with hc
  have hrange : List.map (fun i => alphabetChar ((pmN 6 c ^^^ K) >>> ((5 - i) * 5) &&& 31))
      (List.range 6) =
      List.map alphabetChar [(pmN 6 c ^^^ K) >>> 25 &&& 31, (pmN 6 c ^^^ K) >>> 20 &&& 31,
        (pmN 6 c ^^^ K) >>> 15 &&& 31, (pmN 6 c ^^^ K) >>> 10 &&& 31,
        (pmN 6 c ^^^ K) >>> 5 &&& 31, (pmN 6 c ^^^ K) >>> 0 &&& 31] := rfl
  rw [hrange]
  have hq3 : qtcChars = ['q', 't', 'c'] := rfl
  rw [hq3]
  simp only [List.cons_append, List.nil_append]
  set csumL : List Nat := [(pmN 6 c ^^^ K) >>> 25 &&& 31, (pmN 6 c ^^^ K) >>> 20 &&& 31,
    (pmN 6 c ^^^ K) >>> 15 &&& 31, (pmN 6 c ^^^ K) >>> 10 &&& 31,
    (pmN 6 c ^^^ K) >>> 5 &&& 31, (pmN 6 c ^^^ K) >>> 0 &&& 31] with hcsumL
  set ds := List.map alphabetChar ws ++ List.map alphabetChar csumL with hds
  have hcsumlt : ∀ x ∈ csumL, x < 32 := by
    intro x hx
    rw [hcsumL] at hx
    simp only [List.mem_cons, List.not_mem_nil, or_false] at hx
    rcases hx with h | h | h | h | h | h <;> (rw [h]; exact and31_lt _)
  have hds1 : ∀ ch ∈ ds, ch ≠ '1' := by
    intro ch hch
    rw [hds] at hch
    rcases List.mem_append.mp hch with h | h
    · obtain ⟨w, hw, rfl⟩ := List.mem_map.mp h
      exact alphabetChar_ne_one w (hws w hw)
    · obtain ⟨x, hx, rfl⟩ := List.mem_map.mp h
      exact alphabetChar_ne_one x (hcsumlt x hx)
  have hdslower : ∀ ch ∈ ds, ch.toLower = ch := by
    intro ch hch
    rw [hds] at hch
    rcases List.mem_append.mp hch with h | h
    · obtain ⟨w, hw, rfl⟩ := List.mem_map.mp h
      exact alphabetChar_toLower w (hws w hw)
    · obtain ⟨x, hx, rfl⟩ := List.mem_map.mp h
      exact alphabetChar_toLower x (hcsumlt x hx)
  have hdslen : ds.length = ws.length + 6 := by
    rw [hds, hcsumL]
    simp
  have hlowAll : ∀ ch ∈ 'q' :: 't' :: 'c' :: '1' :: ds, ch.toLower = ch := by
    intro ch hch
    rcases List.mem_cons.mp hch with h | hch
    · rw [h]; decide
    rcases List.mem_cons.mp hch with h | hch
    · rw [h]; decide
    rcases List.mem_cons.mp hch with h | hch
    · rw [h]; decide
    rcases List.mem_cons.mp hch with h | hch
    · rw [h]; decide
    exact hdslower ch hch
  have hlow : List.map Char.toLower ('q' :: 't' :: 'c' :: '1' :: ds) =
      'q' :: 't' :: 'c' :: '1' :: ds := map_toLower_id _ hlowAll
  simp only [decodeCore]
  rw [if_neg (by simp only [List.length_cons]; omega)]
  rw [if_neg (by simp only [List.length_cons]; omega)]
  rw [hlow]
  rw [if_neg (fun hcontra => hcontra.1 rfl)]
  rw [lastIndexOf_qtc1 ds hds1]
  simp only
  rw [if_neg (by norm_num)]
  have htake : List.take 3 ('q' :: 't' :: 'c' :: '1' :: ds) = qtcChars := rfl
  have hdrop : List.drop (3 + 1) ('q' :: 't' :: 'c' :: '1' :: ds) = ds := rfl
  rw [htake, hdrop]
  rw [if_neg (by omega)]
  rw [hrpChk_qtc]
  simp only
  have hmapA : mapAlphabet ds = some (ws ++ csumL) := by
    rw [hds, ← List.map_append]
    apply mapAlphabet_map
    intro x hx
    rcases List.mem_append.mp hx with h | h
    · exact hws x h
    · exact hcsumlt x h
  rw [hmapA]
  simp only
  have hcb : c < 2 ^ 30 := by
    rw [hc]
    apply foldl_pmw_lt ws _ qtcChk qtcChk_lt
    intro x hx
    have := hws x hx
    omega
  have hchkK : List.foldl (fun c v => polymodStep c ^^^ v) qtcChk (ws ++ csumL) = K := by
    rw [List.foldl_append, ← hc, hcsumL]
    exact checksum_fold c K hcb hK
  rw [hchkK]
  rw [if_neg (fun h => h rfl)]
  have htakeL : (ws ++ csumL).take ((ws ++ csumL).length - 6) = ws := by
    apply List.take_left'
    rw [hcsumL]
    simp
  rw [htakeL]
  rfl

/-- Encoding with the fixed "qtc" prefix succeeds whenever all words are
5-bit values and there are at most 80 of them. -/
theorem encode_ok (K : Nat) (ws : List Nat) (hws : ∀ w ∈ ws, w < 32) (hlen : ws.length ≤ 80) :
    ∃ enc, encodeCore K qtcChars ws = Except.ok enc := by
  have hqtclower : qtcChars.map Char.toLower = qtcChars := by decide
  have hall : ws.all (fun x => decide (x < 32)) = true := by
    rw [List.all_eq_true]
    intro x hx
    exact decide_eq_true (hws x hx)
  have hlim : ¬(qtcChars.length + 7 + ws.length > 90) := by
    have h3 : qtcChars.length = 3 := rfl
    omega
  simp only [encodeCore]
  rw [if_neg hlim, hqtclower, hrpChk_qtc]
  simp only [hall, if_true]
  exact ⟨_, rfl⟩

/-- AddressCodec encode as every call site uses it: witness version first,
then the 5-bit repacking of the program, through the `bech32` export. -/
def qtcEncodeAddress (v : Nat) (program : List Nat) : Except String (List Char) :=
  encodeCore bech32Const qtcChars (v :: toWords program)

/-- Modelled from the spec: AddressCodec.decode — the repository never
exercises the decode direction itself, so per §4.3 it is realised with the
same npm bech32 primitives the encode direction uses: library decode, the
first data word as the witness version, fromWords on the rest. -/
def qtcDecodeAddress (cs : List Char) : Except String (List Char × Nat × List Nat) :=
  match decodeCore bech32Const cs with
  | Except.error e => Except.error e
  | Except.ok (hrp, ws) =>
    match ws with
    | [] => Except.error "empty data"
    | v :: rest =>
      match fromWords rest with
      | Except.error e => Except.error e
      | Except.ok program => Except.ok (hrp, v, program)

/-- Length and residual-bit count of the emission loop. -/
theorem emitWords_len_bits (v b outB maxV : Nat) (h : 0 < outB) :
    (emitWords v b outB maxV).1.length = b / outB ∧
      (emitWords v b outB maxV).2 = b % outB := by
  induction b using Nat.strong_induction_on with
  | _ b ih =>
    by_cases hb : outB ≤ b
    · rw [emitWords_ge _ _ _ _ h hb]
      obtain ⟨ih1, ih2⟩ := ih (b - outB) (by omega)
      constructor
      · simp only [List.length_cons, ih1]
        rw [Nat.div_eq_sub_div h hb]
      · simp only [ih2]
        rw [Nat.mod_eq_sub_mod hb]
    · rw [emitWords_lt _ _ _ _ (by omega)]
      constructor
      · simp [Nat.div_eq_of_lt (by omega : b < outB)]
      · simp [Nat.mod_eq_of_lt (by omega : b < outB)]

/-- Length and residual-bit invariant of the conversion fold, independent of
the data values. -/
theorem convertCore_len (data : List Nat) (inB outB maxV : Nat) (h : 0 < outB) :
    outB * (convertCore data inB outB maxV).2.2.length + (convertCore data inB outB maxV).2.1 =
      inB * data.length ∧ (convertCore data inB outB maxV).2.1 < outB := by
  induction data using List.reverseRecOn with
  | nil => simp [convertCore, h]
  | append_singleton q b ih =>
    obtain ⟨ih1, ih2⟩ := ih
    have hstep : convertCore (q ++ [b]) inB outB maxV =
        (((convertCore q inB outB maxV).1 <<< inB) ||| b,
          (emitWords (((convertCore q inB outB maxV).1 <<< inB) ||| b)
            ((convertCore q inB outB maxV).2.1 + inB) outB maxV).2,
          (convertCore q inB outB maxV).2.2 ++
            (emitWords (((convertCore q inB outB maxV).1 <<< inB) ||| b)
              ((convertCore q inB outB maxV).2.1 + inB) outB maxV).1) := by
      simp only [convertCore, List.foldl_append, List.foldl_cons, List.foldl_nil]
    rw [hstep]
    dsimp only
    obtain ⟨e1, e2⟩ := emitWords_len_bits (((convertCore q inB outB maxV).1 <<< inB) ||| b)
      ((convertCore q inB outB maxV).2.1 + inB) outB maxV h
    rw [List.length_append, e1, e2]
    constructor
    · have hdm := Nat.div_add_mod ((convertCore q inB outB maxV).2.1 + inB) outB
      calc outB * ((convertCore q inB outB maxV).2.2.length +
              ((convertCore q inB outB maxV).2.1 + inB) / outB) +
            ((convertCore q inB outB maxV).2.1 + inB) % outB
          = outB * (convertCore q inB outB maxV).2.2.length +
            (outB * (((convertCore q inB outB maxV).2.1 + inB) / outB) +
              ((convertCore q inB outB maxV).2.1 + inB) % outB) := by ring
        _ = outB * (convertCore q inB outB maxV).2.2.length +
            ((convertCore q inB outB maxV).2.1 + inB) := by rw [hdm]
        _ = (outB * (convertCore q inB outB maxV).2.2.length +
            (convertCore q inB outB maxV).2.1) + inB := by ring
        _ = inB * q.length + inB := by rw [ih1]
        _ = inB * (q ++ [b]).length := by simp [List.length_append]; ring
    · exact Nat.mod_lt _ h

/-- Word-count bound used by every address: at most 20 program bytes give
at most 33 words. -/
theorem toWords_length_le (p : List Nat) (h : p.length ≤ 20) : (toWords p).length ≤ 33 := by
  obtain ⟨h1, h2⟩ := convertCore_len p 8 5 31 (by norm_num)
  rw [toWords]
  by_cases hb : 0 < (convertCore p 8 5 31).2.1
  · rw [if_pos hb]
    simp only [List.length_append, List.length_cons, List.length_nil]
    omega
  · rw [if_neg hb]
    omega

/-- Explicit payload of a successful qtc encode. -/
def encPayload (K : Nat) (ws : List Nat) : List Char :=
  qtcChars ++ ['1'] ++ ws.map alphabetChar ++
    (List.range 6).map (fun i =>
      alphabetChar ((pmN 6 (ws.foldl (fun c x => polymodStep c ^^^ x) qtcChk) ^^^ K) >>>
        ((5 - i) * 5) &&& 31))

/-- Successful qtc encodes return exactly the explicit payload. -/
theorem encode_eq (K : Nat) (ws : List Nat) (hws : ∀ w ∈ ws, w < 32) (hlen : ws.length ≤ 80) :
    encodeCore K qtcChars ws = Except.ok (encPayload K ws) := by
  have hqtclower : qtcChars.map Char.toLower = qtcChars := by decide
  have hall : ws.all (fun x => decide (x < 32)) = true := by
    rw [List.all_eq_true]
    intro x hx
    exact decide_eq_true (hws x hx)
  have hlim : ¬(qtcChars.length + 7 + ws.length > 90) := by
    have h3 : qtcChars.length = 3 := rfl
    omega
  simp only [encodeCore]
  rw [if_neg hlim, hqtclower, hrpChk_qtc]
  simp only [hall, if_true]
  rfl

/-- A mapM whose every element succeeds with an explicit value is the
successful map. -/
theorem mapM_ok_map {α β : Type} (l : List α) (f : α → Except String β) (g : α → β)
    (h : ∀ a ∈ l, f a = Except.ok (g a)) : l.mapM f = Except.ok (l.map g) := by
  induction l with
  | nil => rfl
  | cons a l ih =>
    rw [List.mapM_cons, h a (List.mem_cons_self a l),
      ih (fun x hx => h x (List.mem_cons_of_mem a hx))]
    rfl

/-- Explicit entry the HD address loop produces at index i. -/
def hdEntryOf (H : HashFns) (dsa : NobleDsa) (masterNode : HDNode) (i : Nat) : AddressEntry :=
  let childPath : HDPath :=
    { purpose := masterNode.path.purpose, account := masterNode.path.account,
      change := masterNode.path.change, addressIndex := i }
  let childEntropy := H.sha3 512
    (masterNode.masterEntropy ++ strBytes (hdPathToString childPath) ++ u32be i)
  let kp := dsa.keygen (childEntropy.take 32)
  { index := i, path := hdPathToString childPath,
    address := encPayload bech32Const (2 :: toWords ((H.sha3 256 kp.publicKey).take 20)),
    dilithiumPublic := kp.publicKey, dilithiumPrivate := kp.secretKey }

/-- Evaluation of the HD address loop: for any count within 32 bits it
succeeds and produces exactly the entries of hdEntryOf, regardless of the
account/change parameters. -/
theorem generateAddresses_eq (H : HashFns) (dsa : NobleDsa) (masterNode : HDNode)
    (count a c : Nat) (hcount : count ≤ 2 ^ 32) :
    generateAddresses H dsa masterNode count a c =
      Except.ok ((List.range count).map (hdEntryOf H dsa masterNode)) := by
  rw [generateAddresses]
  apply mapM_ok_map
  intro i hi
  have hilt : i < 2 ^ 32 := lt_of_lt_of_le (List.mem_range.mp hi) hcount
  rw [deriveChild, if_pos hilt]
  simp only
  rw [generateAddress, hdProgram]
  simp only
  have hwords : ∀ w ∈ (2 :: toWords ((H.sha3 256
      (dsa.keygen ((H.sha3 512 (masterNode.masterEntropy ++
        strBytes (hdPathToString
          { purpose := masterNode.path.purpose, account := masterNode.path.account,
            change := masterNode.path.change, addressIndex := i }) ++ u32be i)).take 32)).publicKey).take 20)),
      w < 32 := by
    intro w hw
    rcases List.mem_cons.mp hw with h | h
    · omega
    · exact toWords_lt32 _ w h
  have hwlen : (2 :: toWords ((H.sha3 256
      (dsa.keygen ((H.sha3 512 (masterNode.masterEntropy ++
        strBytes (hdPathToString
          { purpose := masterNode.path.purpose, account := masterNode.path.account,
            change := masterNode.path.change, addressIndex := i }) ++ u32be i)).take 32)).publicKey).take 20)).length ≤ 80 := by
    simp only [List.length_cons]
    have := toWords_length_le ((H.sha3 256
      (dsa.keygen ((H.sha3 512 (masterNode.masterEntropy ++
        strBytes (hdPathToString
          { purpose := masterNode.path.purpose, account := masterNode.path.account,
            change := masterNode.path.change, addressIndex := i }) ++ u32be i)).take 32)).publicKey).take 20)
      (by simp)
    omega
  rw [encode_eq bech32Const _ hwords hwlen]
  rfl

/-! ## Concrete stand-ins used by witnesses and counterexamples

The abstract collaborators are instantiated with simple executable
functions so that closed statements can be evaluated. -/

/-- Hash stand-in that echoes its absorbed input. -/
def idHash : HashFns := { sha3 := fun _ x => x, shake := fun _ x _ => x }

/-- KEM stand-in: keypair echoes the seed; the encapsulation shared secret
is the 32-byte message the library drew. -/
def stubKem : NobleKem :=
  { keygen := fun seed => { publicKey := seed, secretKey := seed },
    encapsulate := fun _pk msg => (msg, msg),
    decapsulate := fun ct _sk => ct }

/-- Signature stand-in: keypair echoes the seed. -/
def stubDsa : NobleDsa := { keygen := fun seed => { publicKey := seed, secretKey := seed } }

/-- liboqs stand-in: deterministic echo of the DRBG seed. -/
def stubOqs : OqsProvider :=
  { kemSelf := fun s => ({ publicKey := s, secretKey := s }, s, s),
    sigKeygen := fun s => { publicKey := s, secretKey := s } }

/-! ## Claim theorems -/

/-- C7: For every witness version v from 0 to 31 and every 20-byte program,
decoding the encoding round-trips: decode(encode(v, program)) returns the
triple ("qtc", v, program). -/
theorem C7_roundtrip (v : Nat) (p : List Nat) (hv : v ≤ 31) (hlen : p.length = 20)
    (hb : ∀ b ∈ p, b < 256) :
    (qtcEncodeAddress v p).bind qtcDecodeAddress = Except.ok (qtcChars, v, p) := by
  have hw : ∀ w ∈ v :: toWords p, w < 32 := by
    intro w hw
    rcases List.mem_cons.mp hw with h | h
    · omega
    · exact toWords_lt32 p w h
  have hl : (v :: toWords p).length ≤ 80 := by
    simp only [List.length_cons]
    have := toWords_length_le p (by omega)
    omega
  rw [qtcEncodeAddress, encode_eq bech32Const _ hw hl]
  show qtcDecodeAddress (encPayload bech32Const (v :: toWords p)) =
    Except.ok (qtcChars, v, p)
  rw [qtcDecodeAddress]
  have hdec := decode_encode bech32Const (by decide) (v :: toWords p) hw hl _
    (encode_eq bech32Const _ hw hl)
  rw [hdec]
  simp only
  rw [fromWords_toWords p hb hlen]

/-- Witness for C7 at witness version 2 and the program 0,1,...,19. -/
theorem C7_roundtrip_witness :
    (2 ≤ 31 ∧ (List.range 20).length = 20 ∧ ∀ b ∈ List.range 20, b < 256) ∧
    (qtcEncodeAddress 2 (List.range 20)).bind qtcDecodeAddress =
      Except.ok (qtcChars, 2, List.range 20) :=
  ⟨by decide, C7_roundtrip 2 (List.range 20) (by decide) (by decide) (by decide)⟩

/-- C8: Parsing the HD path text "m/44/0/0/0" (missing hardened markers)
fails with the format error, and parsing the path text with address index
-1 fails with the format error; in neither case is a path value
returned. -/
theorem C8_path_rejections :
    hdPathFromString "m/44/0/0/0" = Except.error "Invalid HD path format" ∧
    hdPathFromString ("m/44" ++ apos.toString ++ "/0" ++ apos.toString ++ "/0/-1") =
      Except.error "Invalid HD path format" := by
  constructor
  · rfl
  · rfl

/-- C6: For every parent entropy and every HD path with address index
representable in 32 unsigned bits, child derivation returns
SHA3-512(parentEntropy ‖ canonicalPathString(childPath) ‖
bigEndianUint32(index)), with the child path copying purpose, account and
change from the parent. -/
theorem C6_deriveChild (H : HashFns) (node : HDNode) (index : Nat) (h : index < 2 ^ 32) :
    deriveChild H node index = Except.ok
      { masterEntropy := H.sha3 512 (node.masterEntropy ++
          strBytes (hdPathToString
            { purpose := node.path.purpose, account := node.path.account,
              change := node.path.change, addressIndex := index }) ++ u32be index),
        path := { purpose := node.path.purpose, account := node.path.account,
                  change := node.path.change, addressIndex := index },
        publicKey := none, privateKey := none } := by
  rw [deriveChild, if_pos h]

/-- Witness for C6 at a concrete node and index. -/
theorem C6_deriveChild_witness :
    7 < 2 ^ 32 ∧
    deriveChild idHash { masterEntropy := [1, 2], path := defaultHDPath,
                         publicKey := none, privateKey := none } 7 = Except.ok
      { masterEntropy := idHash.sha3 512 ([1, 2] ++
          strBytes (hdPathToString
            { purpose := 44, account := 0, change := 0, addressIndex := 7 }) ++ u32be 7),
        path := { purpose := 44, account := 0, change := 0, addressIndex := 7 },
        publicKey := none, privateKey := none } :=
  ⟨by norm_num, C6_deriveChild idHash
    { masterEntropy := [1, 2], path := defaultHDPath, publicKey := none, privateKey := none }
    7 (by norm_num)⟩

/-- C10: In the HD multi-address wallet the generated address list is
byte-identical for any two (account, change) argument pairs, and every
entry path is the fixed default chain m/44h/0h/0 with only the index
varying. -/
theorem C10_account_change_independent (H : HashFns) (kem : NobleKem) (dsa : NobleDsa)
    (kyberSeed encapRandom : List Nat) (count a1 c1 a2 c2 : Nat) (hcount : count ≤ 2 ^ 32) :
    generateAddresses H dsa (hdMasterNode H kem dsa kyberSeed encapRandom) count a1 c1 =
      generateAddresses H dsa (hdMasterNode H kem dsa kyberSeed encapRandom) count a2 c2 ∧
    ∃ entries,
      generateAddresses H dsa (hdMasterNode H kem dsa kyberSeed encapRandom) count a1 c1 =
        Except.ok entries ∧
      entries.map AddressEntry.path = (List.range count).map (fun i =>
        hdPathToString { purpose := 44, account := 0, change := 0, addressIndex := i }) := by
  constructor
  · rfl
  · refine ⟨_, generateAddresses_eq H dsa _ count a1 c1 hcount, ?_⟩
    rw [List.map_map]
    apply List.map_congr_left
    intro i _
    rfl

/-- Witness for C10 with concrete stand-ins, two addresses and the
argument pairs (0, 0) and (5, 7). -/
theorem C10_account_change_independent_witness :
    2 ≤ 2 ^ 32 ∧
    (generateAddresses idHash stubDsa (hdMasterNode idHash stubKem stubDsa [] []) 2 0 0 =
        generateAddresses idHash stubDsa (hdMasterNode idHash stubKem stubDsa [] []) 2 5 7 ∧
      ∃ entries,
        generateAddresses idHash stubDsa (hdMasterNode idHash stubKem stubDsa [] []) 2 0 0 =
          Except.ok entries ∧
        entries.map AddressEntry.path = (List.range 2).map (fun i =>
          hdPathToString { purpose := 44, account := 0, change := 0, addressIndex := i })) :=
  ⟨by norm_num,
    C10_account_change_independent idHash stubKem stubDsa [] [] 2 0 0 5 7 (by norm_num)⟩

/-- Hash stand-in that echoes its input reduced to bytes, satisfying the
byte-output contract of the real SHA3/SHAKE. -/
def byteHash : HashFns :=
  { sha3 := fun _ x => x.map (fun b => b % 256),
    shake := fun _ x _ => x.map (fun b => b % 256) }

/-- Signature stand-in returning the fixed 32-byte 0x22 public key of the
C2 test vector. -/
def vecDsa : NobleDsa :=
  { keygen := fun _ => { publicKey := List.replicate 32 0x22, secretKey := [] } }

theorem hexDigitVal_hexDigitChar (n : Nat) (h : n < 16) :
    hexDigitVal (hexDigitChar n) = some n := by
  interval_cases n <;> decide

theorem bytesToHex_length (bs : List Nat) : (bytesToHex bs).length = 2 * bs.length := by
  induction bs with
  | nil => rfl
  | cons b bs ih =>
    simp only [bytesToHex, List.map_cons, List.flatten_cons] at ih ⊢
    simp only [List.length_append, List.length_cons, List.length_nil, ih]
    omega

theorem hex2binGo_bytesToHex (bs : List Nat) (h : ∀ b ∈ bs, b < 256) :
    hex2binGo (bytesToHex bs) = Except.ok bs := by
  induction bs with
  | nil => rfl
  | cons b bs ih =>
    have hb : b < 256 := h b (by simp)
    have hrest : bytesToHex (b :: bs) =
        hexDigitChar (b / 16) :: hexDigitChar (b % 16) :: bytesToHex bs := by
      simp [bytesToHex]
    rw [hrest, hex2binGo, hexDigitVal_hexDigitChar (b / 16) (by omega),
      hexDigitVal_hexDigitChar (b % 16) (by omega),
      ih (fun x hx => h x (by simp [hx]))]
    simp only
    have hbv : b / 16 * 16 + b % 16 = b := by omega
    rw [hbv]

/-- Hex transport through the CLI boundary is lossless on byte strings. -/
theorem hex2bin_bytesToHex (bs : List Nat) (h : ∀ b ∈ bs, b < 256) :
    hex2bin (bytesToHex bs) = Except.ok bs := by
  rw [hex2bin, if_neg, hex2binGo_bytesToHex bs h]
  rw [bytesToHex_length]
  omega

/-- C2: Given kemSharedSecret equal to 64 bytes of 0x11 and sigPublicKey
equal to 32 bytes of 0x22, the Primary method master entropy equals
SHA3-512(kemSharedSecret) exactly, and the HD multi-address master entropy
equals SHA3-512(kemSharedSecret ‖ sigPublicKey) exactly, in that
concatenation order. -/
theorem C2_master_vectors (H : HashFns) (kem : NobleKem) (dsa : NobleDsa)
    (kyberSeed encapRandom : List Nat)
    (hss : qti2SharedSecret kem kyberSeed encapRandom = List.replicate 64 0x11)
    (hpk : (hdProvisional H kem dsa kyberSeed encapRandom).publicKey = List.replicate 32 0x22) :
    qti2Entropy H kem kyberSeed encapRandom = H.sha3 512 (List.replicate 64 0x11) ∧
    hdMasterEntropy H kem dsa kyberSeed encapRandom =
      H.sha3 512 (List.replicate 64 0x11 ++ List.replicate 32 0x22) := by
  constructor
  · rw [qti2Entropy, hss]
  · rw [hdMasterEntropy, hdCombinedInput, hss, hpk]

/-- Witness for C2 with stand-ins realising both test vectors. -/
theorem C2_master_vectors_witness :
    (qti2SharedSecret stubKem [] (List.replicate 64 0x11) = List.replicate 64 0x11 ∧
      (hdProvisional idHash stubKem vecDsa [] (List.replicate 64 0x11)).publicKey =
        List.replicate 32 0x22) ∧
    (qti2Entropy idHash stubKem [] (List.replicate 64 0x11) =
        idHash.sha3 512 (List.replicate 64 0x11) ∧
      hdMasterEntropy idHash stubKem vecDsa [] (List.replicate 64 0x11) =
        idHash.sha3 512 (List.replicate 64 0x11 ++ List.replicate 32 0x22)) :=
  ⟨⟨rfl, rfl⟩, C2_master_vectors idHash stubKem vecDsa [] (List.replicate 64 0x11) rfl rfl⟩

/-- C3 counterexample: the single PQ-HD master entropy is not the XOF
digest of kemSharedSecret ‖ domainTag ‖ provisionalSigPublicKey — at a
concrete instantiation the absorbed byte strings differ, because part_002
absorbs no domain tag into the master derivation. -/
theorem C3_no_domain_tag_counterexample :
    ¬ (part002Master idHash stubKem stubDsa [] (List.replicate 64 0x11) =
      idHash.shake 256 (qti2SharedSecret stubKem [] (List.replicate 64 0x11) ++
        QTC_PQHD_DILITHIUM ++
        (part002Dilithium idHash stubKem stubDsa [] (List.replicate 64 0x11)).publicKey) 64) := by
  decide

/-- C3 amended: in both single PQ-HD variants the master entropy is the
64-byte XOF digest of kemSharedSecret ‖ provisionalSigPublicKey, with no
domain tag between them; the QTC_PQHD_DILITHIUM tag is absorbed only in
the 32-byte provisional signature-seed derivation XOF-256(ss ‖ tag). -/
theorem C3_single_master_formula (H : HashFns) (kem : NobleKem) (dsa : NobleDsa)
    (kyberSeed encapRandom : List Nat) (P : OqsProvider) (seed3 : List Nat)
    (hseed3 : ∀ b ∈ seed3, b < 256)
    (hH : ∀ n inp len, ∀ b ∈ H.shake n inp len, b < 256) :
    (part002Master H kem dsa kyberSeed encapRandom =
      H.shake 256 (qti2SharedSecret kem kyberSeed encapRandom ++
        (part002Dilithium H kem dsa kyberSeed encapRandom).publicKey) 64) ∧
    (part002DilithiumSeed H kem kyberSeed encapRandom =
      H.shake 256 (qti2SharedSecret kem kyberSeed encapRandom ++ QTC_PQHD_DILITHIUM) 32) ∧
    (∃ w, qti3Wallet H P seed3 = Except.ok w ∧
      w.masterEntropy = H.shake 256 (w.sharedSecret ++ w.dilithiumPublic) 64) := by
  refine ⟨rfl, rfl, ?_⟩
  rw [qti3Wallet, cmd_kem_self_from_seed, hex2bin_bytesToHex seed3 hseed3]
  simp only
  rw [cmd_gen_dilithium_from_seed, hex2bin_bytesToHex _ (fun b hb => hH _ _ _ b hb)]
  simp only
  have hwords : ∀ w ∈ (2 :: toWords ((H.sha3 256 (H.shake 256
      ((P.kemSelf (shake256ExpandSeed48 H seed3 "kyber_kem_self")).2.2 ++
        (P.sigKeygen (shake256ExpandSeed48 H (H.shake 256
          ((P.kemSelf (shake256ExpandSeed48 H seed3 "kyber_kem_self")).2.2 ++
            QTC_PQHD_DILITHIUM) 32) "dilithium_keygen")).publicKey) 64)).take 20)), w < 32 := by
    intro w hw
    rcases List.mem_cons.mp hw with h | h
    · omega
    · exact toWords_lt32 _ w h
  have hwlen : ((2 : Nat) :: toWords ((H.sha3 256 (H.shake 256
      ((P.kemSelf (shake256ExpandSeed48 H seed3 "kyber_kem_self")).2.2 ++
        (P.sigKeygen (shake256ExpandSeed48 H (H.shake 256
          ((P.kemSelf (shake256ExpandSeed48 H seed3 "kyber_kem_self")).2.2 ++
            QTC_PQHD_DILITHIUM) 32) "dilithium_keygen")).publicKey) 64)).take 20)).length ≤ 80 := by
    simp only [List.length_cons]
    have := toWords_length_le ((H.sha3 256 (H.shake 256
      ((P.kemSelf (shake256ExpandSeed48 H seed3 "kyber_kem_self")).2.2 ++
        (P.sigKeygen (shake256ExpandSeed48 H (H.shake 256
          ((P.kemSelf (shake256ExpandSeed48 H seed3 "kyber_kem_self")).2.2 ++
            QTC_PQHD_DILITHIUM) 32) "dilithium_keygen")).publicKey) 64)).take 20) (by simp)
    omega
  rw [encode_eq bech32Const _ hwords hwlen]
  exact ⟨_, rfl, rfl⟩

/-- Witness for the C3 amended theorem with byte-respecting stand-ins. -/
theorem C3_single_master_formula_witness :
    ((∀ b ∈ [1, 2], b < 256) ∧
      (∀ n inp len, ∀ b ∈ byteHash.shake n inp len, b < 256)) ∧
    ((part002Master byteHash stubKem stubDsa [] (List.replicate 64 0x11) =
      byteHash.shake 256 (qti2SharedSecret stubKem [] (List.replicate 64 0x11) ++
        (part002Dilithium byteHash stubKem stubDsa [] (List.replicate 64 0x11)).publicKey) 64) ∧
    (part002DilithiumSeed byteHash stubKem [] (List.replicate 64 0x11) =
      byteHash.shake 256 (qti2SharedSecret stubKem [] (List.replicate 64 0x11) ++
        QTC_PQHD_DILITHIUM) 32) ∧
    (∃ w, qti3Wallet byteHash stubOqs [1, 2] = Except.ok w ∧
      w.masterEntropy = byteHash.shake 256 (w.sharedSecret ++ w.dilithiumPublic) 64)) := by
  have hH : ∀ n inp len, ∀ b ∈ byteHash.shake n inp len, b < 256 := by
    intro n inp len b hb
    obtain ⟨a, _, rfl⟩ := List.mem_map.mp hb
    omega
  exact ⟨⟨by decide, hH⟩,
    C3_single_master_formula byteHash stubKem stubDsa [] (List.replicate 64 0x11)
      stubOqs [1, 2] (by decide) hH⟩

set_option maxRecDepth 100000 in
set_option maxHeartbeats 2000000 in
/-- C1: qti2.js consumes hidden OS randomness after Seed creation — the
unseeded `ml_kem1024.encapsulate(kyber_pk)` call draws a fresh 32-byte
message from the OS RNG, so two runs from the same fixed Kyber seed
produce different wallets (shared secret, entropy, keys and address all
differ once the drawn messages differ).  Evaluated at the failing input:
seed = 64 zero bytes, library-drawn messages 32 bytes of 0x00 versus 32
bytes of 0x01. -/
theorem C1_hidden_encapsulation_randomness :
    List.replicate 32 0 ≠ List.replicate 32 1 ∧
    qti2GenerateWallet idHash stubKem stubDsa (List.replicate 64 0) (List.replicate 32 0) ≠
      qti2GenerateWallet idHash stubKem stubDsa (List.replicate 64 0) (List.replicate 32 1) := by
  constructor
  · decide
  · decide

set_option maxRecDepth 100000 in
set_option maxHeartbeats 2000000 in
/-- C4 counterexample: in the HD multi-address variant the generated
address is not derived from SHA3-256 of the master entropy — at a concrete
instantiation the first generated address differs from the address the
master entropy would give, because generateAddress hashes the child node
Dilithium public key. -/
theorem C4_hd_not_master_counterexample :
    generateAddresses idHash stubDsa (hdMasterNode idHash stubKem stubDsa [] []) 1 0 0 =
      Except.ok [hdEntryOf idHash stubDsa (hdMasterNode idHash stubKem stubDsa [] []) 0] ∧
    (hdEntryOf idHash stubDsa (hdMasterNode idHash stubKem stubDsa [] []) 0).address ≠
      encPayload bech32Const (2 :: toWords ((idHash.sha3 256
        (hdMasterNode idHash stubKem stubDsa [] []).masterEntropy).take 20)) := by
  constructor
  · exact generateAddresses_eq idHash stubDsa _ 1 0 0 (by norm_num)
  · decide

/-- C4 amended: every witness program is the first 20 bytes of a SHA3-256
digest; the Primary variants hash the signature public key, the single
PQ-HD variants hash the master entropy, and the HD multi-address variant
hashes the per-address (child node) Dilithium signature public key. -/
theorem C4_program_formula (H : HashFns) (kem : NobleKem) (dsa : NobleDsa)
    (kyberSeed encapRandom entropy : List Nat) (path : HDPath)
    (pkey : List Nat) (priv : Option (List Nat)) :
    (qti2AddressBytes H kem dsa kyberSeed encapRandom =
      (H.sha3 256 (qti2Dilithium H kem dsa kyberSeed encapRandom).publicKey).take 20) ∧
    (qtc2AddressBytes H kem dsa kyberSeed encapRandom =
      (H.sha3 256 (qtc2Dilithium H kem dsa kyberSeed encapRandom).publicKey).take 20) ∧
    (part002AddressBytes H kem dsa kyberSeed encapRandom =
      (H.sha3 256 (part002Master H kem dsa kyberSeed encapRandom)).take 20) ∧
    (hdProgram H { masterEntropy := entropy, path := path,
                   publicKey := some pkey, privateKey := priv } =
      Except.ok ((H.sha3 256 pkey).take 20)) :=
  ⟨rfl, rfl, rfl, rfl⟩

set_option maxRecDepth 100000 in
set_option maxHeartbeats 2000000 in
/-- C5: all scripts compute the address checksum with the constant of the
npm `bech32` export (1), not the bech32m constant their comments and the
README name, and the qti2.js Primary variant prepends no witness version
at all.  Evaluated at the failing input: witness version 2 with the 20
zero-byte program for the constant divergence, and a concrete qti2.js run
whose data words are exactly the 32 program words with no version in
front. -/
theorem C5_bech32_constant_divergence :
    ((qti2AddressWords idHash stubKem stubDsa (List.replicate 64 0)
        (List.replicate 32 0)).length = 32 ∧
      qti2AddressWords idHash stubKem stubDsa (List.replicate 64 0) (List.replicate 32 0) ≠
        1 :: toWords (qti2AddressBytes idHash stubKem stubDsa (List.replicate 64 0)
          (List.replicate 32 0))) ∧
    encodeCore bech32Const qtcChars (2 :: toWords (List.replicate 20 0)) ≠
      encodeCore bech32mConst qtcChars (2 :: toWords (List.replicate 20 0)) := by
  refine ⟨⟨by decide, by decide⟩, by decide⟩

/-- C9: the part_002 export path never produces a wallet record — the
export object reads the undefined identifier combined_input and fails —
while the sibling qti3.js path computes the combined input before export
and populates the field with kemSharedSecret ‖ dilithiumPublicKey. -/
theorem C9_combined_input_defect (H : HashFns) (kem : NobleKem) (dsa : NobleDsa)
    (kyberSeed encapRandom : List Nat) (P : OqsProvider) (seed3 : List Nat)
    (hseed3 : ∀ b ∈ seed3, b < 256)
    (hH : ∀ n inp len, ∀ b ∈ H.shake n inp len, b < 256) :
    part002Wallet H kem dsa kyberSeed encapRandom =
      Except.error "ReferenceError: combined_input is not defined" ∧
    ∃ w, qti3Wallet H P seed3 = Except.ok w ∧
      w.combinedInput = w.sharedSecret ++ w.dilithiumPublic := by
  constructor
  · rw [part002Wallet, part002Address]
    have hwords : ∀ w ∈ (2 :: toWords (part002AddressBytes H kem dsa kyberSeed encapRandom)),
        w < 32 := by
      intro w hw
      rcases List.mem_cons.mp hw with h | h
      · omega
      · exact toWords_lt32 _ w h
    have hwlen : ((2 : Nat) :: toWords (part002AddressBytes H kem dsa kyberSeed
        encapRandom)).length ≤ 80 := by
      simp only [List.length_cons]
      have := toWords_length_le (part002AddressBytes H kem dsa kyberSeed encapRandom)
        (by rw [part002AddressBytes]; simp)
      omega
    rw [encode_eq bech32Const _ hwords hwlen]
  · rw [qti3Wallet, cmd_kem_self_from_seed, hex2bin_bytesToHex seed3 hseed3]
    simp only
    rw [cmd_gen_dilithium_from_seed, hex2bin_bytesToHex _ (fun b hb => hH _ _ _ b hb)]
    simp only
    have hwords : ∀ w ∈ (2 :: toWords ((H.sha3 256 (H.shake 256
        ((P.kemSelf (shake256ExpandSeed48 H seed3 "kyber_kem_self")).2.2 ++
          (P.sigKeygen (shake256ExpandSeed48 H (H.shake 256
            ((P.kemSelf (shake256ExpandSeed48 H seed3 "kyber_kem_self")).2.2 ++
              QTC_PQHD_DILITHIUM) 32) "dilithium_keygen")).publicKey) 64)).take 20)), w < 32 := by
      intro w hw
      rcases List.mem_cons.mp hw with h | h
      · omega
      · exact toWords_lt32 _ w h
    have hwlen : ((2 : Nat) :: toWords ((H.sha3 256 (H.shake 256
        ((P.kemSelf (shake256ExpandSeed48 H seed3 "kyber_kem_self")).2.2 ++
          (P.sigKeygen (shake256ExpandSeed48 H (H.shake 256
            ((P.kemSelf (shake256ExpandSeed48 H seed3 "kyber_kem_self")).2.2 ++
              QTC_PQHD_DILITHIUM) 32) "dilithium_keygen")).publicKey) 64)).take 20)).length ≤ 80 := by
      simp only [List.length_cons]
      have := toWords_length_le ((H.sha3 256 (H.shake 256
        ((P.kemSelf (shake256ExpandSeed48 H seed3 "kyber_kem_self")).2.2 ++
          (P.sigKeygen (shake256ExpandSeed48 H (H.shake 256
            ((P.kemSelf (shake256ExpandSeed48 H seed3 "kyber_kem_self")).2.2 ++
              QTC_PQHD_DILITHIUM) 32) "dilithium_keygen")).publicKey) 64)).take 20) (by simp)
      omega
    rw [encode_eq bech32Const _ hwords hwlen]
    exact ⟨_, rfl, rfl⟩

/-- Witness for C9 with byte-respecting stand-ins. -/
theorem C9_combined_input_defect_witness :
    ((∀ b ∈ [1, 2], b < 256) ∧
      (∀ n inp len, ∀ b ∈ byteHash.shake n inp len, b < 256)) ∧
    (part002Wallet byteHash stubKem stubDsa [] [] =
      Except.error "ReferenceError: combined_input is not defined" ∧
    ∃ w, qti3Wallet byteHash stubOqs [1, 2] = Except.ok w ∧
      w.combinedInput = w.sharedSecret ++ w.dilithiumPublic) := by
  have hH : ∀ n inp len, ∀ b ∈ byteHash.shake n inp len, b < 256 := by
    intro n inp len b hb
    obtain ⟨a, _, rfl⟩ := List.mem_map.mp hb
    omega
  exact ⟨⟨by decide, hH⟩,
    C9_combined_input_defect byteHash stubKem stubDsa [] [] stubOqs [1, 2] (by decide) hH⟩

end QTC
